import Mathlib

/-
Verification of the TMJ number-extraction service (app.py).

The development shallowly embeds the pure core of the program:
`TMJNumberExtractor.extract_section_numbers`, `_remove_duplicates`,
`process_pdf`, and the response-shaping logic of the `/upload`,
`/progress/<id>` and `/cancel/<id>` handlers.

Conventions of the embedding:
- A page text and each line are `List Char`; `str.split('\n')` is `splitLines`.
- Python regular expressions are embedded by their `findall` behaviour on a
  line, written as explicit left-to-right scanners (notes at each scanner
  justify the translation of greedy matching and of the scan pointer).
- The `threading.Event` cancellation flag is a function `Nat → Bool` giving
  the value returned by each successive read of the flag; a read counter is
  threaded through every function that reads the flag, mirroring the temporal
  order of the reads in the source.
- Python floats for progress are embedded as `ℚ` (the computed ratios are
  exact in the source's range of interest).
- `\s` and `str.split()` / `str.strip()` are modelled on the ASCII whitespace
  characters; the marker patterns and `re.IGNORECASE` are modelled by ASCII
  case folding, which is exact for the three all-ASCII marker literals.
-/

/-- A line (or a whole page text) of the PDF, as a character list. -/
abbrev Line := List Char

/-- A numeric token extracted from the text. -/
abbrev Token := List Char

/-- ASCII whitespace, the characters matched by `\s` (and used by
`str.strip()` / `str.split()`) on the ASCII plane. -/
def isWs (c : Char) : Bool :=
  c = ' ' || c = '\t' || c = '\n' || c = '\r' || c = '\x0b' || c = '\x0c'

/-- The hyphen class `[-–]` of the `pr_section` pattern:
ASCII hyphen or en-dash. -/
def isHy (c : Char) : Bool :=
  c = '-' || c = '–'

/-- `text.split('\n')` (app.py line 73).  Python never returns an empty
list here: an empty string yields `[""]`. -/
def splitLines : List Char → List Line
  | [] => [[]]
  | c :: cs =>
    if c = '\n' then [] :: splitLines cs
    else
      match splitLines cs with
      | l :: ls => (c :: l) :: ls
      | [] => [[c]]

/-- `line.strip()`: remove leading and trailing whitespace. -/
def strip (l : List Char) : List Char :=
  ((l.dropWhile isWs).reverse.dropWhile isWs).reverse

/-- Helper for `splitWs`: accumulates the current word reversed. -/
def splitWsAux : List Char → List Char → List (List Char)
  | acc, [] => if acc.isEmpty then [] else [acc.reverse]
  | acc, c :: cs =>
    if isWs c then
      if acc.isEmpty then splitWsAux [] cs
      else acc.reverse :: splitWsAux [] cs
    else splitWsAux (c :: acc) cs

/-- `line.split()` with no separator (app.py line 101): split on runs of
whitespace, discarding empty pieces. -/
def splitWs (l : List Char) : List (List Char) :=
  splitWsAux [] l

/-- `tok.isdigit()` for a piece produced by `split()`: nonempty and all
characters decimal digits. -/
def pyIsDigit (t : List Char) : Bool :=
  !t.isEmpty && t.all Char.isDigit

/-- Does `pat` match at the head of `l` under ASCII case folding?  Used for
the `re.IGNORECASE` marker literals (which are all upper-case ASCII). -/
def startsWithCI : List Char → List Char → Bool
  | [], _ => true
  | _ :: _, [] => false
  | p :: ps, c :: cs => (c.toUpper = p) && startsWithCI ps cs

/-- `re.search` of a case-insensitive literal `pat` in `l`:
some position of `l` starts a case-folded occurrence of `pat`. -/
def searchCI (pat : List Char) : List Char → Bool
  | [] => startsWithCI pat []
  | c :: cs => startsWithCI pat (c :: cs) || searchCI pat cs

/-- `section_markers['corrigenda']` (app.py line 45). -/
def corrigendaMarker (l : Line) : Bool :=
  searchCI "CORRIGENDA".data l

/-- `section_markers['renewal']` (app.py line 46). -/
def renewalMarker (l : Line) : Bool :=
  searchCI "FOLLOWING TRADE MARKS REGISTRATION RENEWED".data l

/-- `section_markers['pr_section']` (app.py line 47). -/
def prSectionMarker (l : Line) : Bool :=
  searchCI "PR SECTION".data l

/-- `section_markers['advertisement']` (app.py line 48).  Defined by the
source but never consulted by the advertisement branch. -/
def advertisementMarker (l : Line) : Bool :=
  searchCI "TRADE MARKS JOURNAL".data l

/-- The maximal digit runs of a line, in order.  `findall` of
`(?<!\d)(\d{5,})(?!\d)` returns exactly the maximal runs of length ≥ 5:
the look-behind pins each match to the start of a maximal run, greedy
`\d{5,}` takes the whole run, and the look-ahead confirms its end; runs
shorter than 5 yield no match at any of their positions. -/
def digitRuns : List Char → List (List Char)
  | [] => []
  | c :: cs =>
    if c.isDigit then
      (c :: cs.takeWhile Char.isDigit) :: digitRuns (cs.dropWhile Char.isDigit)
    else digitRuns cs
termination_by l => l.length
decreasing_by
  · have h1 : (cs.dropWhile Char.isDigit).length ≤ cs.length :=
      List.Sublist.length_le (List.dropWhile_sublist _)
    simp only [List.length_cons]; omega
  · simp only [List.length_cons]; omega

/-- `findall` of the corrigenda pattern `(?<!\d)(\d{5,})(?!\d)`
(app.py line 53), which is also the first renewal sub-pattern
(app.py line 56): maximal digit runs of length ≥ 5. -/
def findRuns5 (l : List Char) : List Token :=
  (digitRuns l).filter (fun r => 5 ≤ r.length)

/-- Does `l` start with `\s+\d{2}/\d{2}/\d{4}` (the optional discarded date
group of the advertisement pattern)?  `\s+` is forced maximal because the
following character must be a digit, and the `{n}` counters are exact. -/
def dateShape (l : List Char) : Bool :=
  !(l.takeWhile isWs).isEmpty &&
    match l.dropWhile isWs with
    | a :: b :: c :: d :: e :: f :: g :: h :: i :: j :: _ =>
      a.isDigit && b.isDigit && c = '/' && d.isDigit && e.isDigit &&
        f = '/' && g.isDigit && h.isDigit && i.isDigit && j.isDigit
    | _ => false

/-- `findall` of the advertisement pattern
`(?<!\d)(\d{5,})(?:\s+\d{2}/\d{2}/\d{4})?` (app.py line 52).  Matches are
maximal digit runs of length ≥ 5 (see `digitRuns`); when a run is followed
by the date shape the scan pointer additionally skips the date (the date's
own digit runs have length ≤ 4 and could never match, but the skip is kept
for fidelity).  The group returned by `findall` is the digit run only. -/
def advScan : List Char → List Token
  | [] => []
  | c :: cs =>
    if c.isDigit then
      if 5 ≤ (c :: cs.takeWhile Char.isDigit).length then
        if dateShape (cs.dropWhile Char.isDigit) then
          (c :: cs.takeWhile Char.isDigit) ::
            advScan (((cs.dropWhile Char.isDigit).dropWhile isWs).drop 10)
        else
          (c :: cs.takeWhile Char.isDigit) :: advScan (cs.dropWhile Char.isDigit)
      else advScan (cs.dropWhile Char.isDigit)
    else advScan cs
termination_by l => l.length
decreasing_by
  · have h1 : (cs.dropWhile Char.isDigit).length ≤ cs.length :=
      List.Sublist.length_le (List.dropWhile_sublist _)
    have h2 : ((cs.dropWhile Char.isDigit).dropWhile isWs).length ≤
        (cs.dropWhile Char.isDigit).length :=
      List.Sublist.length_le (List.dropWhile_sublist _)
    have h3 : (((cs.dropWhile Char.isDigit).dropWhile isWs).drop 10).length =
        ((cs.dropWhile Char.isDigit).dropWhile isWs).length - 10 :=
      List.length_drop 10 _
    simp only [List.length_cons]; omega
  · have h1 : (cs.dropWhile Char.isDigit).length ≤ cs.length :=
      List.Sublist.length_le (List.dropWhile_sublist _)
    simp only [List.length_cons]; omega
  · have h1 : (cs.dropWhile Char.isDigit).length ≤ cs.length :=
      List.Sublist.length_le (List.dropWhile_sublist _)
    simp only [List.length_cons]; omega
  · simp only [List.length_cons]; omega

/-- `findall` of the pr_section pattern `(\d{5,})\s*[-–]` (app.py line 59).
A match can only start at the head of a maximal digit run (backtracking
inside the run would put a digit where `\s*[-–]` must match), the greedy
`\d{5,}` captures the whole run, `\s*` is forced maximal (backtracking
would put a whitespace where the hyphen must be), and on failure no
position inside the run can start a match, so the scanner skips the run. -/
def prFindAll : List Char → List Token
  | [] => []
  | c :: cs =>
    if c.isDigit then
      if (((cs.dropWhile Char.isDigit).dropWhile isWs).head?.any isHy) &&
          5 ≤ (c :: cs.takeWhile Char.isDigit).length then
        (c :: cs.takeWhile Char.isDigit) ::
          prFindAll ((cs.dropWhile Char.isDigit).dropWhile isWs).tail
      else prFindAll (cs.dropWhile Char.isDigit)
    else prFindAll cs
termination_by l => l.length
decreasing_by
  · have h1 : (cs.dropWhile Char.isDigit).length ≤ cs.length :=
      List.Sublist.length_le (List.dropWhile_sublist _)
    have h2 : ((cs.dropWhile Char.isDigit).dropWhile isWs).length ≤
        (cs.dropWhile Char.isDigit).length :=
      List.Sublist.length_le (List.dropWhile_sublist _)
    have h3 : (((cs.dropWhile Char.isDigit).dropWhile isWs).tail).length =
        ((cs.dropWhile Char.isDigit).dropWhile isWs).length - 1 :=
      List.length_tail _
    simp only [List.length_cons]; omega
  · have h1 : (cs.dropWhile Char.isDigit).length ≤ cs.length :=
      List.Sublist.length_le (List.dropWhile_sublist _)
    simp only [List.length_cons]; omega
  · simp only [List.length_cons]; omega

/-- The literal of the second renewal sub-pattern. -/
def appNoLit : List Char := "Application No".data

/-- Case-sensitive literal prefix test. -/
def isPrefixList : List Char → List Char → Bool
  | [], _ => true
  | _ :: _, [] => false
  | p :: ps, c :: cs => p = c && isPrefixList ps cs

/-- After the literal "Application No" at the head of `l`, the position the
regex `\s*:?\s*` deterministically reaches: skip whitespace, an optional
single ':', then whitespace (the three components have disjoint character
classes, so backtracking admits no other successful path). -/
def appNoTail (l : List Char) : List Char :=
  if ((l.drop 14).dropWhile isWs).head? = some ':' then
    ((l.drop 14).dropWhile isWs).tail.dropWhile isWs
  else (l.drop 14).dropWhile isWs

/-- `findall` of `Application No\s*:?\s*(\d{5,})` (app.py line 57).  The
scanner looks for the case-sensitive literal, follows `appNoTail`, and
requires a greedy (maximal) digit run of length ≥ 5; on failure the scan
pointer advances one character, which amounts to searching the next
occurrence of the literal. -/
def appNoScan : List Char → List Token
  | [] => []
  | c :: cs =>
    if isPrefixList appNoLit (c :: cs) then
      if 5 ≤ ((appNoTail (c :: cs)).takeWhile Char.isDigit).length then
        ((appNoTail (c :: cs)).takeWhile Char.isDigit) ::
          appNoScan ((appNoTail (c :: cs)).dropWhile Char.isDigit)
      else appNoScan cs
    else appNoScan cs
termination_by l => l.length
decreasing_by
  · have h2 : (appNoTail (c :: cs)).length ≤ cs.length := by
      have d1 : (((c :: cs).drop 14).dropWhile isWs).length ≤
          ((c :: cs).drop 14).length :=
        List.Sublist.length_le (List.dropWhile_sublist _)
      have d2 : ((c :: cs).drop 14).length = (c :: cs).length - 14 :=
        List.length_drop 14 _
      unfold appNoTail
      split
      · have d3 : ((((c :: cs).drop 14).dropWhile isWs).tail.dropWhile isWs).length ≤
            (((c :: cs).drop 14).dropWhile isWs).tail.length :=
          List.Sublist.length_le (List.dropWhile_sublist _)
        have d4 : (((c :: cs).drop 14).dropWhile isWs).tail.length =
            (((c :: cs).drop 14).dropWhile isWs).length - 1 :=
          List.length_tail _
        simp only [List.length_cons] at d2 ⊢; omega
      · simp only [List.length_cons] at d2 ⊢; omega
    have h3 : ((appNoTail (c :: cs)).dropWhile Char.isDigit).length ≤
        (appNoTail (c :: cs)).length :=
      List.Sublist.length_le (List.dropWhile_sublist _)
    simp only [List.length_cons]; omega
  · simp only [List.length_cons]; omega
  · simp only [List.length_cons]; omega

/-- The contribution of one line in the `rc` branch (app.py lines 101-102):
exactly when the whitespace-split of the raw line has exactly 5 pieces, all
`isdigit`, the 5 pieces are taken in order. -/
def rcLine (l : Line) : List Token :=
  if (splitWs l).length = 5 && (splitWs l).all pyIsDigit then splitWs l else []

/-- `dict.fromkeys` accumulation of `_remove_duplicates` (app.py line 66):
`seen` holds the keys inserted so far; a repeated key is dropped. -/
def rdAux : List Token → List Token → List Token
  | _, [] => []
  | seen, x :: xs => if x ∈ seen then rdAux seen xs else x :: rdAux (x :: seen) xs

/-- `_remove_duplicates(numbers) = list(dict.fromkeys(numbers))`
(app.py lines 64-66): keep the first occurrence of each token. -/
def remove_duplicates (l : List Token) : List Token :=
  rdAux [] l

/-- `self.section_order` (app.py line 42). -/
def sectionOrder : List String :=
  ["advertisement", "corrigenda", "rc", "renewal", "pr_section"]

/-- The body of one loop iteration of `extract_section_numbers`
(app.py lines 76-126), per section: given the in-section flag and the raw
line, return (break?, new flag, tokens extended onto `numbers`).
- advertisement (76-81): every line contributes `advScan` of the stripped
  line; no flag, no break.
- corrigenda (83-95): its own marker turns the flag on and the line is
  skipped (this test comes first); otherwise the renewal marker breaks;
  otherwise, while inside, the stripped line contributes `findRuns5`.
- rc (97-102): every line contributes `rcLine` of the raw line.
- renewal (104-114): its marker turns the flag on and the line is skipped;
  while inside, the stripped line contributes `findRuns5` then `appNoScan`.
- pr_section (116-126): its marker turns the flag on and the line is
  skipped; while inside, the stripped line contributes `prFindAll`. -/
def lineStep (sec : String) (ins : Bool) (l : Line) : Bool × Bool × List Token :=
  if sec = "advertisement" then (false, ins, advScan (strip l))
  else if sec = "corrigenda" then
    if corrigendaMarker l then (false, true, [])
    else if renewalMarker l then (true, ins, [])
    else if ins then (false, ins, findRuns5 (strip l))
    else (false, ins, [])
  else if sec = "rc" then (false, ins, rcLine l)
  else if sec = "renewal" then
    if renewalMarker l then (false, true, [])
    else if ins then (false, ins, findRuns5 (strip l) ++ appNoScan (strip l))
    else (false, ins, [])
  else if sec = "pr_section" then
    if prSectionMarker l then (false, true, [])
    else if ins then (false, ins, prFindAll (strip l))
    else (false, ins, [])
  else (false, ins, [])

/-- The `for line in lines` loop shared by the five branches of
`extract_section_numbers`: before each line the cancel flag is read
(app.py lines 78, 86, 99, 107, 119); if set, the call returns `[]`
(modelled `none`) discarding everything accumulated; a break returns what
was accumulated so far.  The second component is the flag-read counter. -/
def lineLoop (cancel : Nat → Bool) (sec : String) :
    List Line → Nat → Bool → Option (List Token) × Nat
  | [], k, _ => (some [], k)
  | l :: ls, k, ins =>
    if cancel k then (none, k + 1)
    else
      match lineStep sec ins l with
      | (brk, ins2, toks) =>
        if brk then (some [], k + 1)
        else
          match lineLoop cancel sec ls (k + 1) ins2 with
          | (some rest, kk) => (some (toks ++ rest), kk)
          | (none, kk) => (none, kk)

/-- `extract_section_numbers(text, section)` (app.py lines 68-132) with the
flag-read counter starting at `k`.  One read happens at entry (line 69);
an empty text or an unrecognised section name yields `[]`; otherwise the
line loop runs and the accumulated numbers pass through
`_remove_duplicates` (line 132); a mid-loop cancellation returns `[]`
(lines 79, 87, 100, 108, 120).  The `try/except` of lines 75-130 is not
modelled: no modelled operation raises. -/
def extract_section_numbers (cancel : Nat → Bool) (k : Nat) (text : List Char)
    (sec : String) : List Token × Nat :=
  if cancel k || text.isEmpty then ([], k + 1)
  else if sec ∈ sectionOrder then
    match lineLoop cancel sec (splitLines text) (k + 1) false with
    | (some raw, kk) => (remove_duplicates raw, kk)
    | (none, kk) => ([], kk)
  else ([], k + 1)

/-- The cancellation signal that is never set. -/
def neverCancel : Nat → Bool := fun _ => false

/-- The raw token stream of one page text for one section, before
`_remove_duplicates`: the accumulated `numbers` list of an uncancelled run
of the line loop. -/
def rawTokens (text : List Char) (sec : String) : List Token :=
  ((lineLoop neverCancel sec (splitLines text) 0 false).1).getD []

/-- The page loop of `process_pdf` for one section (app.py lines 149-164).
Per page: read the cancel flag (line 150; break if set), increment
`processed_pages` and record
`progress = (processed_pages / total_pages) * 100` (lines 153-156), then
run `extract_section_numbers` on the page's text and extend the section's
accumulator (lines 159-161).  Arguments: the read counter `k` and the
`processed_pages` counter `pr`; returns (tokens, progress updates, final
read counter, final processed counter). -/
def pageLoop (cancel : Nat → Bool) (sec : String) (total : Nat) :
    List (List Char) → Nat → Nat → List Token × List ℚ × Nat × Nat
  | [], k, pr => ([], [], k, pr)
  | t :: ts, k, pr =>
    if cancel k then ([], [], k + 1, pr)
    else
      match extract_section_numbers cancel (k + 1) t sec with
      | (nums, k1) =>
        match pageLoop cancel sec total ts k1 (pr + 1) with
        | (rest, ups, k2, pr2) =>
          (nums ++ rest, (((pr + 1 : ℕ) : ℚ) / ((total : ℕ) : ℚ)) * 100 :: ups, k2, pr2)

/-- The section loop of `process_pdf` (app.py lines 144-164).  At the start
of each section the cancel flag is read (line 145); a set flag breaks,
leaving the remaining sections with their initialised `[]` (line 135). -/
def sectionLoop (cancel : Nat → Bool) (pages : List (List Char)) (total : Nat) :
    List String → Nat → Nat → List (String × List Token) × List ℚ × Nat × Nat
  | [], k, pr => ([], [], k, pr)
  | s :: ss, k, pr =>
    if cancel k then ((s :: ss).map (fun x => (x, [])), [], k + 1, pr)
    else
      match pageLoop cancel s total pages (k + 1) pr with
      | (nums, ups, k1, pr1) =>
        match sectionLoop cancel pages total ss k1 pr1 with
        | (rest, ups2, k2, pr2) => ((s, nums) :: rest, ups ++ ups2, k2, pr2)

/-- The outcome of one run of `process_pdf`: the per-section results, the
sequence of values taken by the task's `progress` field after its
initialisation to 0, and the final flag-read and processed-page counters. -/
structure PdfRun where
  results : List (String × List Token)
  updates : List ℚ
  kEnd : Nat
  prEnd : Nat
deriving DecidableEq

/-- `process_pdf(pdf_file)` (app.py lines 134-166) over the extracted page
texts (`page.extract_text() or ""` is the model's page input, PDF parsing
being external): `total_pages` is set to pages × sections (line 140), the
section/page loops run, and each accumulator passes through
`_remove_duplicates` (line 166). -/
def process_pdf (cancel : Nat → Bool) (pages : List (List Char)) : PdfRun :=
  match sectionLoop cancel pages (pages.length * sectionOrder.length) sectionOrder 0 0 with
  | (res, ups, k, pr) =>
    { results := res.map (fun p => (p.1, remove_duplicates p.2))
      updates := ups
      kEnd := k
      prEnd := pr }

/-- A JSON value of the upload response body. -/
inductive JVal where
  | jstr : String → JVal
  | jnums : List Token → JVal
deriving DecidableEq

/-- The error message of a cancelled run (app.py line 204). -/
def cancelledMsg : String := "Processing cancelled by user"

/-- The JSON body built by `upload_pdf` after a successful validation
(app.py lines 200-210): run `process_pdf`; then read the cancel flag once
more (line 203) — if set, `result` is replaced by the error object — and
finally `result['task_id'] = task_id` adds the task id key (line 206). -/
def upload_body (cancel : Nat → Bool) (pages : List (List Char))
    (taskId : String) : List (String × JVal) :=
  (if cancel (process_pdf cancel pages).kEnd then [("error", JVal.jstr cancelledMsg)]
   else (process_pdf cancel pages).results.map (fun p => (p.1, JVal.jnums p.2))) ++
    [("task_id", JVal.jstr taskId)]

/-- The mutable task record: the cancellation flag and the stored status
string (`processing_tasks[task_id]`, app.py lines 193-198). -/
structure TaskRec where
  cancelFlagSet : Bool
  status : String
deriving DecidableEq

/-- The effect of `POST /cancel/<task_id>` on the task record
(app.py lines 234-235): set the flag and store status `'cancelled'`. -/
def cancel_task (t : TaskRec) : TaskRec :=
  { cancelFlagSet := true, status := "cancelled" }

/-- The effect of the end of `upload_pdf` on the task record
(app.py line 207): the stored status is overwritten with `'completed'`,
whatever it was. -/
def upload_finalize (t : TaskRec) : TaskRec :=
  { t with status := "completed" }

/-- The `status` field reported by `GET /progress/<task_id>`
(app.py line 223): `'cancelled'` whenever the flag is set, regardless of
the stored status. -/
def progress_status (t : TaskRec) : String :=
  if t.cancelFlagSet then "cancelled" else t.status

/-- The index of the first occurrence of `x` in `l` (length of `l` when
absent): the position referred to by first-occurrence ordering claims. -/
def firstIdx (x : Token) : List Token → Nat
  | [] => 0
  | y :: ys => if y = x then 0 else firstIdx x ys + 1


/-- Claim side (C3): the contribution of a line under section `rc` as the
claim words it: exactly 5 whitespace-separated tokens, all purely numeric,
taken in order; any other shape contributes nothing. -/
def rcClaimLine (l : Line) : List Token :=
  match splitWs l with
  | [a, b, c, d, e] =>
    if pyIsDigit a && pyIsDigit b && pyIsDigit c && pyIsDigit d && pyIsDigit e then
      [a, b, c, d, e]
    else []
  | _ => []

/-- Claim side (C1 amended): the corrigenda tokens of a page's lines as the
amended claim words them — cut the line list at the first line matching the
renewal terminator but not CORRIGENDA; after the first CORRIGENDA line,
every line not itself matching CORRIGENDA contributes the maximal digit
runs of length ≥ 5 of its stripped text. -/
def corrClaimTokens (ls : List Line) : List Token :=
  ((((ls.takeWhile fun l => !(renewalMarker l && !corrigendaMarker l)).dropWhile
      fun l => !corrigendaMarker l).filter fun l => !corrigendaMarker l).map
    fun l => findRuns5 (strip l)).flatten

/-- Claim side (C2 amended): the renewal tokens of a page's lines as the
amended claim words them — from the lines after the first line matching the
renewal marker, every line not itself matching the marker contributes the
matches of the first sub-pattern followed by those of the second, on its
stripped text; no terminating marker exists. -/
def renewClaimTokens (ls : List Line) : List Token :=
  (((ls.dropWhile fun l => !renewalMarker l).filter fun l => !renewalMarker l).map
    fun l => findRuns5 (strip l) ++ appNoScan (strip l)).flatten

/-- Claim side (C4): the line `l` contains the digit run `x` of length ≥ 5
(maximal: not preceded by a digit) immediately followed by optional
whitespace and then a hyphen (ASCII hyphen or en-dash). -/
def QualOcc (x l : List Char) : Prop :=
  ∃ pre ws hy post, l = pre ++ x ++ ws ++ hy :: post ∧
    (∀ c ∈ x, c.isDigit = true) ∧ 5 ≤ x.length ∧ (∀ c ∈ ws, isWs c = true) ∧
    isHy hy = true ∧ ∀ c, pre.getLast? = some c → ¬c.isDigit = true

/-- The lines scanned by the pr_section branch while the inside flag is on:
the lines after the first line matching "PR SECTION", excluding lines that
themselves match the marker. -/
def prInsideLines (ls : List Line) : List Line :=
  (ls.dropWhile fun l => !prSectionMarker l).filter fun l => !prSectionMarker l

/-- The document-level raw token stream of one section: the concatenation
of the per-page raw streams, across all pages in order. -/
def docRaw (sec : String) (pages : List (List Char)) : List Token :=
  (pages.map fun t => rawTokens t sec).flatten

/-! ### Properties of `_remove_duplicates` -/

theorem rdAux_sublist (seen : List Token) (l : List Token) :
    List.Sublist (rdAux seen l) l := by
  induction l generalizing seen with
  | nil => simp [rdAux]
  | cons x xs ih =>
    by_cases hx : x ∈ seen
    · simp only [rdAux, if_pos hx]
      exact (ih seen).trans (List.sublist_cons_self x xs)
    · simp only [rdAux, if_neg hx]
      exact (ih (x :: seen)).cons₂ x

theorem mem_rdAux (seen : List Token) (l : List Token) (x : Token) :
    x ∈ rdAux seen l ↔ x ∈ l ∧ x ∉ seen := by
  induction l generalizing seen with
  | nil => simp [rdAux]
  | cons y ys ih =>
    by_cases hy : y ∈ seen
    · rw [rdAux, if_pos hy, ih]
      constructor
      · rintro ⟨hm, hns⟩
        exact ⟨List.mem_cons_of_mem _ hm, hns⟩
      · rintro ⟨hm, hns⟩
        rcases List.mem_cons.mp hm with rfl | h2
        · exact absurd hy hns
        · exact ⟨h2, hns⟩
    · rw [rdAux, if_neg hy, List.mem_cons, ih]
      constructor
      · rintro (rfl | ⟨hm, hns⟩)
        · exact ⟨List.mem_cons_self _ _, hy⟩
        · exact ⟨List.mem_cons_of_mem _ hm,
            fun hc => hns (List.mem_cons_of_mem _ hc)⟩
      · rintro ⟨hm, hns⟩
        rcases List.mem_cons.mp hm with rfl | h2
        · exact Or.inl rfl
        · by_cases hxy : x = y
          · exact Or.inl hxy
          · refine Or.inr ⟨h2, fun hc => ?_⟩
            rcases List.mem_cons.mp hc with h3 | h3
            · exact hxy h3
            · exact hns h3

theorem rdAux_nodup (seen : List Token) (l : List Token) :
    (rdAux seen l).Nodup := by
  induction l generalizing seen with
  | nil => simp [rdAux]
  | cons x xs ih =>
    by_cases hx : x ∈ seen
    · simpa [rdAux, if_pos hx] using ih seen
    · simp only [rdAux, if_neg hx, List.nodup_cons]
      refine ⟨fun hc => ?_, ih (x :: seen)⟩
      exact ((mem_rdAux _ _ _).mp hc).2 (List.mem_cons_self x seen)

theorem firstIdx_cons_self (x : Token) (l : List Token) :
    firstIdx x (x :: l) = 0 := by
  simp [firstIdx]

theorem firstIdx_cons_ne (x y : Token) (l : List Token) (h : y ≠ x) :
    firstIdx x (y :: l) = firstIdx x l + 1 := by
  simp [firstIdx, h]

theorem rdAux_pairwise_firstIdx (seen : List Token) (l : List Token) :
    List.Pairwise (fun a b => firstIdx a l < firstIdx b l) (rdAux seen l) := by
  induction l generalizing seen with
  | nil => simp [rdAux]
  | cons x xs ih =>
    have shift : ∀ m : List Token, (∀ y ∈ m, y ≠ x) →
        List.Pairwise (fun a b => firstIdx a xs < firstIdx b xs) m →
        List.Pairwise (fun a b => firstIdx a (x :: xs) < firstIdx b (x :: xs)) m := by
      intro m hne hp
      refine hp.imp_of_mem ?_
      intro a b ha hb hab
      rw [firstIdx_cons_ne a x xs fun e => hne a ha e.symm,
        firstIdx_cons_ne b x xs fun e => hne b hb e.symm]
      omega
    by_cases hx : x ∈ seen
    · rw [rdAux, if_pos hx]
      refine shift _ (fun y hy e => ?_) (ih seen)
      exact ((mem_rdAux _ _ _).mp hy).2 (by rw [e]; exact hx)
    · rw [rdAux, if_neg hx, List.pairwise_cons]
      constructor
      · intro b hb
        have hbx : b ≠ x := fun e =>
          ((mem_rdAux _ _ _).mp hb).2 (by rw [e]; exact List.mem_cons_self x seen)
        rw [firstIdx_cons_self, firstIdx_cons_ne b x xs fun e => hbx e.symm]
        omega
      · refine shift _ (fun y hy e => ?_) (ih (x :: seen))
        exact ((mem_rdAux _ _ _).mp hy).2 (by rw [e]; exact List.mem_cons_self x seen)

theorem rdAux_congr (s1 s2 : List Token) (l : List Token)
    (h : ∀ x, x ∈ s1 ↔ x ∈ s2) : rdAux s1 l = rdAux s2 l := by
  induction l generalizing s1 s2 with
  | nil => simp [rdAux]
  | cons y ys ih =>
    by_cases hy : y ∈ s1
    · rw [rdAux, if_pos hy, rdAux, if_pos ((h y).mp hy)]
      exact ih s1 s2 h
    · rw [rdAux, if_neg hy, rdAux, if_neg (fun hc => hy ((h y).mpr hc))]
      refine congrArg _ (ih (y :: s1) (y :: s2) fun z => ?_)
      rw [List.mem_cons, List.mem_cons, h z]

theorem rdAux_append (seen : List Token) (a b : List Token) :
    ∃ s2, rdAux seen (a ++ b) = rdAux seen a ++ rdAux s2 b ∧
      ∀ x, x ∈ s2 ↔ x ∈ a ∨ x ∈ seen := by
  induction a generalizing seen with
  | nil => exact ⟨seen, by simp [rdAux], fun x => by simp⟩
  | cons y ys ih =>
    by_cases hy : y ∈ seen
    · obtain ⟨s2, he, hm⟩ := ih seen
      refine ⟨s2, ?_, fun x => ?_⟩
      · rw [List.cons_append, rdAux, if_pos hy, rdAux, if_pos hy, he]
      · rw [hm x]
        constructor
        · rintro (h1 | h1)
          · exact Or.inl (List.mem_cons_of_mem _ h1)
          · exact Or.inr h1
        · rintro (h1 | h1)
          · rcases List.mem_cons.mp h1 with rfl | h2
            · exact Or.inr hy
            · exact Or.inl h2
          · exact Or.inr h1
    · obtain ⟨s2, he, hm⟩ := ih (y :: seen)
      refine ⟨s2, ?_, fun x => ?_⟩
      · rw [List.cons_append, rdAux, if_neg hy, rdAux, if_neg hy, he,
          List.cons_append]
      · rw [hm x]
        simp only [List.mem_cons]
        tauto

theorem rdAux_rdAux (a : List Token) (seen inner : List Token)
    (h : ∀ x ∈ inner, x ∈ seen) :
    rdAux seen (rdAux inner a) = rdAux seen a := by
  induction a generalizing seen inner with
  | nil => simp [rdAux]
  | cons x xs ih =>
    by_cases hxi : x ∈ inner
    · rw [rdAux, if_pos hxi, rdAux, if_pos (h x hxi)]
      exact ih seen inner h
    · rw [rdAux, if_neg hxi]
      by_cases hxs : x ∈ seen
      · rw [rdAux, if_pos hxs, rdAux, if_pos hxs]
        refine ih seen (x :: inner) fun y hy => ?_
        rcases List.mem_cons.mp hy with rfl | h2
        · exact hxs
        · exact h y h2
      · rw [rdAux, if_neg hxs, rdAux, if_neg hxs]
        refine congrArg _ (ih (x :: seen) (x :: inner) fun y hy => ?_)
        rcases List.mem_cons.mp hy with rfl | h2
        · exact List.mem_cons_self _ _
        · exact List.mem_cons_of_mem _ (h y h2)

theorem remove_duplicates_sublist (l : List Token) :
    List.Sublist (remove_duplicates l) l :=
  rdAux_sublist [] l

theorem mem_remove_duplicates (l : List Token) (x : Token) :
    x ∈ remove_duplicates l ↔ x ∈ l := by
  rw [remove_duplicates, mem_rdAux]
  simp

theorem remove_duplicates_nodup (l : List Token) : (remove_duplicates l).Nodup :=
  rdAux_nodup [] l

theorem remove_duplicates_pairwise (l : List Token) :
    List.Pairwise (fun a b => firstIdx a l < firstIdx b l)
      (remove_duplicates l) :=
  rdAux_pairwise_firstIdx [] l

theorem rdAux_flatten_map (L : List (List Token)) (seen : List Token) :
    rdAux seen (L.map remove_duplicates).flatten = rdAux seen L.flatten := by
  induction L generalizing seen with
  | nil => simp
  | cons a L' ih =>
    simp only [List.map_cons, List.flatten_cons]
    obtain ⟨s2, he, hm⟩ :=
      rdAux_append seen (remove_duplicates a) (L'.map remove_duplicates).flatten
    obtain ⟨s3, he3, hm3⟩ := rdAux_append seen a L'.flatten
    rw [he, he3]
    have hra : rdAux seen (remove_duplicates a) = rdAux seen a :=
      rdAux_rdAux a seen [] (by simp)
    rw [hra]
    refine congrArg _ ?_
    have hs : ∀ x, x ∈ s2 ↔ x ∈ s3 := by
      intro x
      rw [hm x, hm3 x, mem_remove_duplicates]
    rw [rdAux_congr s2 s3 _ hs, ih s3]

theorem remove_duplicates_flatten_map (L : List (List Token)) :
    remove_duplicates (L.map remove_duplicates).flatten =
      remove_duplicates L.flatten :=
  rdAux_flatten_map L []

/-! ### The line loop: cancellation and uncancelled runs -/

theorem lineLoop_fst_const (sec : String) (ls : List Line) (ins : Bool)
    (k1 k2 : Nat) :
    (lineLoop neverCancel sec ls k1 ins).1 = (lineLoop neverCancel sec ls k2 ins).1 := by
  induction ls generalizing ins k1 k2 with
  | nil => rfl
  | cons l ls ih =>
    rcases hstep : lineStep sec ins l with ⟨brk, ins2, toks⟩
    simp only [lineLoop, neverCancel, Bool.false_eq_true, if_false, hstep]
    cases brk
    · simp only [Bool.false_eq_true, if_false]
      rcases h1 : lineLoop neverCancel sec ls (k1 + 1) ins2 with ⟨r1, m1⟩
      rcases h2 : lineLoop neverCancel sec ls (k2 + 1) ins2 with ⟨r2, m2⟩
      have := ih ins2 (k1 + 1) (k2 + 1)
      rw [h1, h2] at this
      simp only at this
      cases r1 <;> cases r2 <;> simp_all
    · simp

theorem lineLoop_cancel_cases (cancel : Nat → Bool) (sec : String)
    (ls : List Line) (k : Nat) (ins : Bool) :
    (lineLoop cancel sec ls k ins).1 = none ∨
      (lineLoop cancel sec ls k ins).1 = (lineLoop neverCancel sec ls 0 ins).1 := by
  induction ls generalizing k ins with
  | nil => exact Or.inr rfl
  | cons l ls ih =>
    by_cases hc : cancel k
    · left
      simp [lineLoop, hc]
    · rcases hstep : lineStep sec ins l with ⟨brk, ins2, toks⟩
      simp only [lineLoop, hc, Bool.false_eq_true, if_false, hstep, neverCancel]
      cases brk
      · simp only [Bool.false_eq_true, if_false]
        rcases h1 : lineLoop cancel sec ls (k + 1) ins2 with ⟨r1, m1⟩
        rcases h2 : lineLoop neverCancel sec ls 1 ins2 with ⟨r2, m2⟩
        have hcc := ih (k + 1) ins2
        rw [h1] at hcc
        have hkk := lineLoop_fst_const sec ls ins2 1 0
        rw [h2] at hkk
        simp only at hcc hkk ⊢
        rcases hcc with hcc | hcc
        · subst hcc
          left
          cases r2 <;> simp
        · rw [← hkk] at hcc
          subst hcc
          cases r1 <;> simp
      · simp

/-- C6-supporting: `extract_section_numbers` under an arbitrary cancellation
signal either returns `[]` or returns exactly the uncancelled result. -/
theorem extract_cancel_cases (cancel : Nat → Bool) (k : Nat) (text : List Char)
    (sec : String) :
    (extract_section_numbers cancel k text sec).1 = [] ∨
      (extract_section_numbers cancel k text sec).1 =
        (extract_section_numbers neverCancel 0 text sec).1 := by
  by_cases hc : cancel k || text.isEmpty
  · rcases Bool.or_eq_true_iff.mp hc with h1 | h1
    · left
      simp [extract_section_numbers, h1]
    · right
      simp [extract_section_numbers, h1, neverCancel]
  · rw [Bool.or_eq_true_iff] at hc
    push_neg at hc
    obtain ⟨hc1, hc2⟩ := hc
    by_cases hs : sec ∈ sectionOrder
    · have hne : (neverCancel 0 || text.isEmpty) = false := by
        simp [neverCancel, hc2]
      rw [extract_section_numbers, if_neg (by simp [hc1, hc2]), if_pos hs,
        extract_section_numbers, if_neg (by simp [hne, neverCancel, hc2]), if_pos hs]
      rcases h1 : lineLoop cancel sec (splitLines text) (k + 1) false with ⟨r1, m1⟩
      rcases h2 : lineLoop neverCancel sec (splitLines text) 1 false with ⟨r2, m2⟩
      have hcc := lineLoop_cancel_cases cancel sec (splitLines text) (k + 1) false
      rw [h1] at hcc
      have hkk := lineLoop_fst_const sec (splitLines text) false 1 0
      rw [h2] at hkk
      simp only at hcc hkk
      rcases hcc with hcc | hcc
      · subst hcc
        left
        cases r2 <;> simp
      · rw [← hkk] at hcc
        subst hcc
        cases r1 <;> simp
    · left
      rw [extract_section_numbers, if_neg (by simp [hc1, hc2]), if_neg hs]

theorem splitLines_ne_nil (t : List Char) : splitLines t ≠ [] := by
  cases t with
  | nil => simp [splitLines]
  | cons c cs =>
    rw [splitLines]
    split
    · simp
    · rcases h : splitLines cs with _ | ⟨l, ls⟩ <;> simp

/-- C6: with the cancellation signal set at the entry read,
`extract_section_numbers` returns the empty result for every page text and
every section; with the signal set at the read preceding the first line it
likewise returns the empty result; and under an arbitrary signal the result
is either empty or exactly the result of an uncancelled run — a cancelled
call never returns partial data. -/
theorem C6_cancel_clean (cancel : Nat → Bool) (k : Nat) (text : List Char)
    (sec : String) :
    (cancel k = true → (extract_section_numbers cancel k text sec).1 = []) ∧
      (cancel (k + 1) = true →
        (extract_section_numbers cancel k text sec).1 = []) ∧
      ((extract_section_numbers cancel k text sec).1 = [] ∨
        (extract_section_numbers cancel k text sec).1 =
          (extract_section_numbers neverCancel 0 text sec).1) := by
  refine ⟨fun h => by simp [extract_section_numbers, h], fun h => ?_,
    extract_cancel_cases cancel k text sec⟩
  by_cases hc : cancel k || text.isEmpty
  · simp [extract_section_numbers, hc]
  · rw [Bool.or_eq_true_iff] at hc
    push_neg at hc
    obtain ⟨hc1, hc2⟩ := hc
    by_cases hs : sec ∈ sectionOrder
    · rw [extract_section_numbers, if_neg (by simp [hc1, hc2]), if_pos hs]
      rcases hsp : splitLines text with _ | ⟨l, ls⟩
      · exact absurd hsp (splitLines_ne_nil text)
      · simp [lineLoop, h]
    · rw [extract_section_numbers, if_neg (by simp [hc1, hc2]), if_neg hs]

theorem C6_cancel_clean_witness :
    (extract_section_numbers (fun _ => true) 0 "CORRIGENDA\n12345".data
      "corrigenda").1 = [] :=
  (C6_cancel_clean (fun _ => true) 0 "CORRIGENDA\n12345".data "corrigenda").1 rfl

/-- C9-supporting: the corrigenda loop, started with the flag off, returns
an empty accumulator whenever some line matching the renewal marker and not
the corrigenda marker is preceded only by lines not matching the corrigenda
marker. -/
theorem corrLoop_break_before (pre : List Line) (l : Line) (post : List Line)
    (k : Nat) (hr : renewalMarker l = true)
    (hpre : ∀ x ∈ pre, corrigendaMarker x = false)
    (hl : corrigendaMarker l = false) :
    (lineLoop neverCancel "corrigenda" (pre ++ l :: post) k false).1 = some [] := by
  induction pre generalizing k with
  | nil =>
    rw [List.nil_append, lineLoop]
    simp only [neverCancel, Bool.false_eq_true, if_false]
    rw [lineStep]
    simp only [String.reduceEq, if_false, if_true, hl, hr, Bool.false_eq_true, if_pos rfl]
  | cons x pre' ih =>
    have hx : corrigendaMarker x = false := hpre x (List.mem_cons_self _ _)
    rw [List.cons_append, lineLoop]
    simp only [neverCancel, Bool.false_eq_true, if_false]
    rw [lineStep]
    simp only [String.reduceEq, if_false, if_true, hx, Bool.false_eq_true]
    by_cases hxr : renewalMarker x
    · simp [hxr]
    · simp only [hxr, Bool.false_eq_true, if_false]
      have := ih (k + 1) (fun y hy => hpre y (List.mem_cons_of_mem _ hy))
      rcases h1 : lineLoop neverCancel "corrigenda" (pre' ++ l :: post) (k + 1) false
        with ⟨r1, m1⟩
      rw [h1] at this
      simp only at this
      subst this
      simp

/-- C9: when a line matching the renewal terminator occurs before any line
matching CORRIGENDA, corrigenda extraction returns the empty result for the
whole page text: the terminator aborts the scan even though the inside flag
was never turned on, so any later CORRIGENDA marker is never reached. -/
theorem C9_terminator_first (text : List Char) (pre : List Line) (l : Line)
    (post : List Line) (hsplit : splitLines text = pre ++ l :: post)
    (hr : renewalMarker l = true)
    (hpre : ∀ x ∈ pre, corrigendaMarker x = false)
    (hl : corrigendaMarker l = false) :
    (extract_section_numbers neverCancel 0 text "corrigenda").1 = [] := by
  by_cases ht : text.isEmpty
  · simp [extract_section_numbers, ht]
  · rw [extract_section_numbers, if_neg (by simp [neverCancel, ht]),
      if_pos (by decide), hsplit]
    have := corrLoop_break_before pre l post 1 hr hpre hl
    rcases h1 : lineLoop neverCancel "corrigenda" (pre ++ l :: post) 1 false
      with ⟨r1, m1⟩
    rw [h1] at this
    simp only at this
    subst this
    rfl

theorem C9_terminator_first_witness :
    (extract_section_numbers neverCancel 0
      "FOLLOWING TRADE MARKS REGISTRATION RENEWED\nCORRIGENDA\n12345".data
      "corrigenda").1 = [] :=
  C9_terminator_first _ []
    "FOLLOWING TRADE MARKS REGISTRATION RENEWED".data
    ["CORRIGENDA".data, "12345".data] (by decide) (by decide)
    (fun x hx => absurd hx (by simp)) (by decide)

/-- C10: whenever the task's cancellation flag is set, the progress endpoint
reports status "cancelled" regardless of the stored status — in particular
after the upload handler has overwritten the "cancelled" status stored by
the cancel handler with "completed". -/
theorem C10_cancelled_status_wins (t : TaskRec) (h : t.cancelFlagSet = true) :
    progress_status t = "cancelled" ∧
      (upload_finalize (cancel_task t)).status = "completed" ∧
      (upload_finalize (cancel_task t)).cancelFlagSet = true ∧
      progress_status (upload_finalize (cancel_task t)) = "cancelled" :=
  ⟨by simp [progress_status, h], rfl, rfl, rfl⟩

theorem C10_cancelled_status_wins_witness :
    progress_status ⟨true, "completed"⟩ = "cancelled" :=
  (C10_cancelled_status_wins ⟨true, "completed"⟩ rfl).1

/-- C8 counterexample: a run cancelled mid-flight (the signal is set at
every read, in particular at the check after `process_pdf`) produces a body
that also carries the `task_id` key, not exactly the single-key error
object claimed. -/
theorem C8_body_cex :
    (fun _ => true : Nat → Bool) (process_pdf (fun _ => true) [['x']]).kEnd = true ∧
      upload_body (fun _ => true) [['x']] "t1" =
        [("error", JVal.jstr cancelledMsg), ("task_id", JVal.jstr "t1")] ∧
      upload_body (fun _ => true) [['x']] "t1" ≠
        [("error", JVal.jstr cancelledMsg)] := by
  refine ⟨rfl, rfl, by decide⟩

/-- C8 amended: for every upload whose cancellation flag is set when
`upload_pdf` checks it after processing, the body is the JSON object with
the error entry `"Processing cancelled by user"` followed by the `task_id`
entry, instead of the per-section results. -/
theorem C8_cancelled_body (cancel : Nat → Bool) (pages : List (List Char))
    (tid : String) (h : cancel (process_pdf cancel pages).kEnd = true) :
    upload_body cancel pages tid =
      [("error", JVal.jstr cancelledMsg), ("task_id", JVal.jstr tid)] := by
  simp [upload_body, h]

theorem C8_cancelled_body_witness :
    upload_body (fun _ => true) [['x']] "t2" =
      [("error", JVal.jstr cancelledMsg), ("task_id", JVal.jstr "t2")] :=
  C8_cancelled_body (fun _ => true) [['x']] "t2" rfl

/-! ### Per-section line-step shapes and pipelines -/

theorem lineStep_adv (ins : Bool) (l : Line) :
    lineStep "advertisement" ins l = (false, ins, advScan (strip l)) := rfl

theorem lineStep_corr (ins : Bool) (l : Line) :
    lineStep "corrigenda" ins l =
      (if corrigendaMarker l then (false, true, [])
       else if renewalMarker l then (true, ins, [])
       else if ins then (false, ins, findRuns5 (strip l))
       else (false, ins, [])) := rfl

theorem lineStep_rc (ins : Bool) (l : Line) :
    lineStep "rc" ins l = (false, ins, rcLine l) := rfl

theorem lineStep_renew (ins : Bool) (l : Line) :
    lineStep "renewal" ins l =
      (if renewalMarker l then (false, true, [])
       else if ins then (false, ins, findRuns5 (strip l) ++ appNoScan (strip l))
       else (false, ins, [])) := rfl

theorem lineStep_pr (ins : Bool) (l : Line) :
    lineStep "pr_section" ins l =
      (if prSectionMarker l then (false, true, [])
       else if ins then (false, ins, prFindAll (strip l))
       else (false, ins, [])) := rfl

theorem rcLine_eq_claim (l : Line) : rcLine l = rcClaimLine l := by
  rw [rcLine, rcClaimLine]
  rcases h : splitWs l with _ | ⟨a, _ | ⟨b, _ | ⟨c, _ | ⟨d, _ | ⟨e, _ | ⟨f, rest⟩⟩⟩⟩⟩⟩ <;>
    try rfl
  simp only [List.length_cons, List.length_nil, decide_True, Bool.true_and,
    List.all_cons, List.all_nil, Bool.and_true, Bool.and_assoc]

theorem rcLoop_pipeline (ls : List Line) (k : Nat) (ins : Bool) :
    (lineLoop neverCancel "rc" ls k ins).1 = some ((ls.map rcLine).flatten) := by
  induction ls generalizing k ins with
  | nil => rfl
  | cons l ls ih =>
    rw [lineLoop]
    simp only [neverCancel, Bool.false_eq_true, if_false, lineStep_rc]
    rcases h1 : lineLoop neverCancel "rc" ls (k + 1) ins with ⟨r1, m1⟩
    have := ih (k + 1) ins
    rw [h1] at this
    simp only at this
    subst this
    simp

/-- C3: under section `rc` the extraction of a page text is exactly the
first-occurrence deduplication of the per-line contributions, where a line
contributes its 5 whitespace-separated tokens exactly when there are
exactly 5 and all are purely numeric, and contributes nothing otherwise
(in particular for 4 or 6 tokens); the two example lines evaluate as the
claim states. -/
theorem C3_rc_exactly_five (text : List Char) :
    (extract_section_numbers neverCancel 0 text "rc").1 =
      remove_duplicates ((splitLines text).map rcClaimLine).flatten ∧
    rcClaimLine "111 222 333 444 555".data =
      ["111".data, "222".data, "333".data, "444".data, "555".data] ∧
    rcClaimLine "111 222 333".data = [] ∧
    rcClaimLine "111 222 333 444".data = [] ∧
    rcClaimLine "111 222 333 444 555 666".data = [] := by
  refine ⟨?_, by decide, by decide, by decide, by decide⟩
  by_cases ht : text.isEmpty
  · have : text = [] := by rwa [List.isEmpty_iff] at ht
    subst this
    simp [extract_section_numbers, neverCancel]
    decide
  · rw [extract_section_numbers, if_neg (by simp [neverCancel, ht]),
      if_pos (by decide)]
    rcases h1 : lineLoop neverCancel "rc" (splitLines text) 1 false with ⟨r1, m1⟩
    have := rcLoop_pipeline (splitLines text) 1 false
    rw [h1] at this
    simp only at this
    subst this
    simp only
    have hmap : (splitLines text).map rcLine = (splitLines text).map rcClaimLine :=
      List.map_congr_left fun x _ => rcLine_eq_claim x
    rw [hmap]

/-! ### Deduplication of extraction results (C5) -/

theorem lineStep_nil (sec : String) : lineStep sec false [] = (false, false, []) := by
  have hc : corrigendaMarker ([] : Line) = false := by decide
  have hr : renewalMarker ([] : Line) = false := by decide
  have hp : prSectionMarker ([] : Line) = false := by decide
  have hrc : rcLine ([] : Line) = [] := by decide
  have hadv : advScan (strip []) = [] := by
    rw [show strip [] = [] from rfl]
    simp [advScan]
  rw [lineStep]
  split_ifs <;> simp_all

theorem extract_fst_const (k1 k2 : Nat) (text : List Char) (sec : String) :
    (extract_section_numbers neverCancel k1 text sec).1 =
      (extract_section_numbers neverCancel k2 text sec).1 := by
  by_cases ht : text.isEmpty
  · simp [extract_section_numbers, neverCancel, ht]
  · by_cases hs : sec ∈ sectionOrder
    · rw [extract_section_numbers, if_neg (by simp [neverCancel, ht]), if_pos hs,
        extract_section_numbers, if_neg (by simp [neverCancel, ht]), if_pos hs]
      rcases h1 : lineLoop neverCancel sec (splitLines text) (k1 + 1) false with ⟨r1, m1⟩
      rcases h2 : lineLoop neverCancel sec (splitLines text) (k2 + 1) false with ⟨r2, m2⟩
      have := lineLoop_fst_const sec (splitLines text) false (k1 + 1) (k2 + 1)
      rw [h1, h2] at this
      simp only at this
      subst this
      cases r1 <;> simp
    · rw [extract_section_numbers, if_neg (by simp [neverCancel, ht]), if_neg hs,
        extract_section_numbers, if_neg (by simp [neverCancel, ht]), if_neg hs]

theorem lineLoop_unknown (sec : String) (hs : sec ∉ sectionOrder)
    (ls : List Line) (k : Nat) (ins : Bool) :
    (lineLoop neverCancel sec ls k ins).1 = some [] := by
  have hne : sec ≠ "advertisement" ∧ sec ≠ "corrigenda" ∧ sec ≠ "rc" ∧
      sec ≠ "renewal" ∧ sec ≠ "pr_section" := by
    simp only [sectionOrder, List.mem_cons, List.not_mem_nil, or_false] at hs
    push_neg at hs
    exact hs
  obtain ⟨h1, h2, h3, h4, h5⟩ := hne
  induction ls generalizing k ins with
  | nil => rfl
  | cons l ls ih =>
    rw [lineLoop]
    simp only [neverCancel, Bool.false_eq_true, if_false]
    rw [lineStep, if_neg h1, if_neg h2, if_neg h3, if_neg h4, if_neg h5]
    rcases hl : lineLoop neverCancel sec ls (k + 1) ins with ⟨r1, m1⟩
    have := ih (k + 1) ins
    rw [hl] at this
    simp only at this
    subst this
    simp

theorem extract_eq_rd_raw (text : List Char) (sec : String) :
    (extract_section_numbers neverCancel 0 text sec).1 =
      remove_duplicates (rawTokens text sec) := by
  by_cases ht : text.isEmpty
  · have htn : text = [] := by rwa [List.isEmpty_iff] at ht
    subst htn
    have hL : (extract_section_numbers neverCancel 0 [] sec).1 = [] := by
      rw [extract_section_numbers]
      simp [neverCancel]
    rw [hL, rawTokens]
    have hR : (lineLoop neverCancel sec (splitLines []) 0 false).1 = some [] := by
      rw [show splitLines ([] : List Char) = [[]] from rfl, lineLoop]
      simp only [neverCancel, Bool.false_eq_true, if_false, lineStep_nil]
      rfl
    rw [hR]
    rfl
  · by_cases hs : sec ∈ sectionOrder
    · rw [extract_section_numbers, if_neg (by simp [neverCancel, ht]), if_pos hs,
        rawTokens]
      rcases h1 : lineLoop neverCancel sec (splitLines text) 1 false with ⟨r1, m1⟩
      rcases h0 : lineLoop neverCancel sec (splitLines text) 0 false with ⟨r0, m0⟩
      have := lineLoop_fst_const sec (splitLines text) false 1 0
      rw [h1, h0] at this
      simp only at this
      subst this
      cases r1 <;> simp [remove_duplicates, rdAux]
    · rw [extract_section_numbers, if_neg (by simp [neverCancel, ht]), if_neg hs,
        rawTokens, lineLoop_unknown sec hs]
      rfl

theorem pageLoop_results (sec : String) (total : Nat) (ps : List (List Char))
    (k pr : Nat) :
    (pageLoop neverCancel sec total ps k pr).1 =
      (ps.map fun t => (extract_section_numbers neverCancel 0 t sec).1).flatten := by
  induction ps generalizing k pr with
  | nil => rfl
  | cons t ts ih =>
    rw [pageLoop]
    simp only [neverCancel, Bool.false_eq_true, if_false]
    rcases he : extract_section_numbers neverCancel (k + 1) t sec with ⟨nums, k1⟩
    have hce := extract_fst_const (k + 1) 0 t sec
    rw [he] at hce
    simp only at hce
    rcases hp : pageLoop neverCancel sec total ts k1 (pr + 1) with ⟨rest, ups, k2, pr2⟩
    have := ih k1 (pr + 1)
    rw [hp] at this
    simp only at this
    subst this
    simp [hce]

theorem sectionLoop_results (pages : List (List Char)) (total : Nat)
    (ss : List String) (k pr : Nat) :
    (sectionLoop neverCancel pages total ss k pr).1 =
      ss.map fun s =>
        (s, (pages.map fun t => (extract_section_numbers neverCancel 0 t s).1).flatten) := by
  induction ss generalizing k pr with
  | nil => rfl
  | cons s ss ih =>
    rw [sectionLoop]
    simp only [neverCancel, Bool.false_eq_true, if_false]
    rcases hp : pageLoop neverCancel s total pages (k + 1) pr with ⟨nums, ups, k1, pr1⟩
    have hpl := pageLoop_results s total pages (k + 1) pr
    rw [hp] at hpl
    simp only at hpl
    subst hpl
    rcases hsl : sectionLoop neverCancel pages total ss k1 pr1 with ⟨rest, ups2, k2, pr2⟩
    have := ih k1 pr1
    rw [hsl] at this
    simp only at this
    subst this
    simp

/-- C5: for every section and page text, the extraction result is exactly
`_remove_duplicates` of the raw collected token stream; such a result has
no duplicates, is a sublist of the raw stream (order preserved), contains
exactly the raw stream's tokens, and lists them ordered by the position of
their first occurrence; and the document-level results of `process_pdf` are
the first-occurrence deduplications of the concatenated raw streams of all
pages, per section. -/
theorem C5_dedup_first_occurrence (sec : String) (text : List Char)
    (l : List Token) (pages : List (List Char)) :
    (extract_section_numbers neverCancel 0 text sec).1 =
      remove_duplicates (rawTokens text sec) ∧
    (remove_duplicates l).Nodup ∧
    List.Sublist (remove_duplicates l) l ∧
    (∀ x, x ∈ remove_duplicates l ↔ x ∈ l) ∧
    List.Pairwise (fun a b => firstIdx a l < firstIdx b l) (remove_duplicates l) ∧
    (process_pdf neverCancel pages).results =
      sectionOrder.map fun s => (s, remove_duplicates (docRaw s pages)) := by
  refine ⟨extract_eq_rd_raw text sec, remove_duplicates_nodup l,
    remove_duplicates_sublist l, mem_remove_duplicates l,
    remove_duplicates_pairwise l, ?_⟩
  rw [process_pdf]
  rcases hsl : sectionLoop neverCancel pages (pages.length * sectionOrder.length)
    sectionOrder 0 0 with ⟨res, ups, k, pr⟩
  have := sectionLoop_results pages (pages.length * sectionOrder.length)
    sectionOrder 0 0
  rw [hsl] at this
  simp only at this
  subst this
  simp only [List.map_map]
  refine List.map_congr_left fun s _ => ?_
  simp only [Function.comp]
  refine congrArg _ ?_
  have hre : (pages.map fun t => (extract_section_numbers neverCancel 0 t s).1) =
      (pages.map fun t => rawTokens t s).map remove_duplicates := by
    rw [List.map_map]
    exact List.map_congr_left fun t _ => extract_eq_rd_raw t s
  rw [hre, remove_duplicates_flatten_map, docRaw]

/-! ### Corrigenda and renewal pipelines (C1, C2) -/

theorem corrLoop_inside (ls : List Line) (k : Nat) :
    (lineLoop neverCancel "corrigenda" ls k true).1 =
      some ((((ls.takeWhile fun l => !(renewalMarker l && !corrigendaMarker l)).filter
        fun l => !corrigendaMarker l).map fun l => findRuns5 (strip l)).flatten) := by
  induction ls generalizing k with
  | nil => rfl
  | cons l ls ih =>
    rw [lineLoop]
    simp only [neverCancel, Bool.false_eq_true, if_false, lineStep_corr]
    cases hc : corrigendaMarker l with
    | true =>
      simp only [hc, if_true]
      rcases h1 : lineLoop neverCancel "corrigenda" ls (k + 1) true with ⟨r1, m1⟩
      have := ih (k + 1)
      rw [h1] at this
      simp only at this
      subst this
      simp [List.takeWhile_cons, List.filter_cons, hc]
    | false =>
      cases hr : renewalMarker l with
      | true =>
        simp only [hc, hr, Bool.false_eq_true, if_false, if_true]
        simp [List.takeWhile_cons, hc, hr]
      | false =>
        simp only [hc, hr, Bool.false_eq_true, if_false, if_true]
        rcases h1 : lineLoop neverCancel "corrigenda" ls (k + 1) true with ⟨r1, m1⟩
        have := ih (k + 1)
        rw [h1] at this
        simp only at this
        subst this
        simp [List.takeWhile_cons, List.filter_cons, hc, hr]

theorem corrLoop_outside (ls : List Line) (k : Nat) :
    (lineLoop neverCancel "corrigenda" ls k false).1 = some (corrClaimTokens ls) := by
  induction ls generalizing k with
  | nil => rfl
  | cons l ls ih =>
    rw [lineLoop]
    simp only [neverCancel, Bool.false_eq_true, if_false, lineStep_corr]
    cases hc : corrigendaMarker l with
    | true =>
      simp only [hc, if_true]
      rcases h1 : lineLoop neverCancel "corrigenda" ls (k + 1) true with ⟨r1, m1⟩
      have := corrLoop_inside ls (k + 1)
      rw [h1] at this
      simp only at this
      subst this
      simp [corrClaimTokens, List.takeWhile_cons, List.dropWhile_cons,
        List.filter_cons, hc]
    | false =>
      cases hr : renewalMarker l with
      | true =>
        simp only [hc, hr, Bool.false_eq_true, if_false, if_true]
        simp [corrClaimTokens, List.takeWhile_cons, hc, hr]
      | false =>
        simp only [hc, hr, Bool.false_eq_true, if_false, if_true]
        rcases h1 : lineLoop neverCancel "corrigenda" ls (k + 1) false with ⟨r1, m1⟩
        have := ih (k + 1)
        rw [h1] at this
        simp only at this
        subst this
        simp [corrClaimTokens, List.takeWhile_cons, List.dropWhile_cons,
          List.filter_cons, hc, hr]

theorem renewLoop_inside (ls : List Line) (k : Nat) :
    (lineLoop neverCancel "renewal" ls k true).1 =
      some (((ls.filter fun l => !renewalMarker l).map
        fun l => findRuns5 (strip l) ++ appNoScan (strip l)).flatten) := by
  induction ls generalizing k with
  | nil => rfl
  | cons l ls ih =>
    rw [lineLoop]
    simp only [neverCancel, Bool.false_eq_true, if_false, lineStep_renew]
    cases hr : renewalMarker l with
    | true =>
      simp only [hr, if_true]
      rcases h1 : lineLoop neverCancel "renewal" ls (k + 1) true with ⟨r1, m1⟩
      have := ih (k + 1)
      rw [h1] at this
      simp only at this
      subst this
      simp [List.filter_cons, hr]
    | false =>
      simp only [hr, Bool.false_eq_true, if_false, if_true]
      rcases h1 : lineLoop neverCancel "renewal" ls (k + 1) true with ⟨r1, m1⟩
      have := ih (k + 1)
      rw [h1] at this
      simp only at this
      subst this
      simp [List.filter_cons, hr]

theorem renewLoop_outside (ls : List Line) (k : Nat) :
    (lineLoop neverCancel "renewal" ls k false).1 = some (renewClaimTokens ls) := by
  induction ls generalizing k with
  | nil => rfl
  | cons l ls ih =>
    rw [lineLoop]
    simp only [neverCancel, Bool.false_eq_true, if_false, lineStep_renew]
    cases hr : renewalMarker l with
    | true =>
      simp only [hr, if_true]
      rcases h1 : lineLoop neverCancel "renewal" ls (k + 1) true with ⟨r1, m1⟩
      have := renewLoop_inside ls (k + 1)
      rw [h1] at this
      simp only at this
      subst this
      simp [renewClaimTokens, List.dropWhile_cons, List.filter_cons, hr]
    | false =>
      simp only [hr, Bool.false_eq_true, if_false, if_true]
      rcases h1 : lineLoop neverCancel "renewal" ls (k + 1) false with ⟨r1, m1⟩
      have := ih (k + 1)
      rw [h1] at this
      simp only at this
      subst this
      simp [renewClaimTokens, List.dropWhile_cons, hr]

/-- C1 counterexample: on this page text the first line matches the renewal
terminator (so the claim, as stated, allows no token from it or from any
later line, forcing an empty result), yet corrigenda extraction returns
["12345"], taken from the second line: the line also matches CORRIGENDA,
which the code tests first, so no break happens. -/
theorem C1_corrigenda_cex :
    renewalMarker ((splitLines
      "CORRIGENDA FOLLOWING TRADE MARKS REGISTRATION RENEWED\n12345".data).headD [])
      = true ∧
    (extract_section_numbers neverCancel 0
      "CORRIGENDA FOLLOWING TRADE MARKS REGISTRATION RENEWED\n12345".data
      "corrigenda").1 = ["12345".data] := by
  refine ⟨by decide, ?_⟩
  simp [extract_section_numbers, neverCancel, lineLoop, lineStep, splitLines,
    corrigendaMarker, renewalMarker, searchCI, startsWithCI, findRuns5, digitRuns,
    strip, isWs, remove_duplicates, rdAux, sectionOrder]

/-- C1 amended: corrigenda extraction yields no tokens from lines before
the first line matching CORRIGENDA, lines matching CORRIGENDA contribute
nothing, and no tokens come from the first line that matches the renewal
terminator without also matching CORRIGENDA, nor from any line after it;
within the remaining region each line contributes the maximal digit runs of
length ≥ 5 of its stripped text, deduplicated by first occurrence; on the
example page text the result is exactly ["12345"]. -/
theorem C1_corrigenda_region (text : List Char) :
    (extract_section_numbers neverCancel 0 text "corrigenda").1 =
      remove_duplicates (corrClaimTokens (splitLines text)) ∧
    (extract_section_numbers neverCancel 0
      "CORRIGENDA\n12345 is corrected\nFOLLOWING TRADE MARKS REGISTRATION RENEWED\n99999".data
      "corrigenda").1 = ["12345".data] := by
  constructor
  · by_cases ht : text.isEmpty
    · have htn : text = [] := by rwa [List.isEmpty_iff] at ht
      subst htn
      decide
    · rw [extract_section_numbers, if_neg (by simp [neverCancel, ht]),
        if_pos (by decide)]
      rcases h1 : lineLoop neverCancel "corrigenda" (splitLines text) 1 false
        with ⟨r1, m1⟩
      have := corrLoop_outside (splitLines text) 1
      rw [h1] at this
      simp only at this
      subst this
      rfl
  · simp [extract_section_numbers, neverCancel, lineLoop, lineStep, splitLines,
      corrigendaMarker, renewalMarker, searchCI, startsWithCI, findRuns5, digitRuns,
      strip, isWs, remove_duplicates, rdAux, sectionOrder]

/-- C2 counterexample: on this page text the second line is a subsequent
line carrying the first sub-pattern match "12345", so the claim, as stated,
requires it to be collected; but the line itself also matches the renewal
marker and is skipped, and the result is empty. -/
theorem C2_renewal_cex :
    (extract_section_numbers neverCancel 0
      "FOLLOWING TRADE MARKS REGISTRATION RENEWED\nFOLLOWING TRADE MARKS REGISTRATION RENEWED 12345".data
      "renewal").1 = [] ∧
    renewalMarker ((splitLines
      "FOLLOWING TRADE MARKS REGISTRATION RENEWED\nFOLLOWING TRADE MARKS REGISTRATION RENEWED 12345".data).headD [])
      = true ∧
    findRuns5 (strip ((splitLines
      "FOLLOWING TRADE MARKS REGISTRATION RENEWED\nFOLLOWING TRADE MARKS REGISTRATION RENEWED 12345".data).getD 1 []))
      = ["12345".data] := by
  refine ⟨?_, by decide, ?_⟩
  · simp [extract_section_numbers, neverCancel, lineLoop, lineStep, splitLines,
      renewalMarker, searchCI, startsWithCI, strip, isWs, remove_duplicates,
      rdAux, sectionOrder]
  · simp [splitLines, findRuns5, digitRuns, strip, isWs]

/-- C2 amended: renewal extraction yields no tokens from lines before the
first line matching the renewal marker; every subsequent line that does not
itself match the marker contributes the concatenated matches of the two
sub-patterns — maximal digit runs of length ≥ 5, then the digit run
following "Application No" with optional colon/space — on its stripped
text, to the end of the page text with no terminating marker; lines
matching the marker are skipped. -/
theorem C2_renewal_region (text : List Char) :
    (extract_section_numbers neverCancel 0 text "renewal").1 =
      remove_duplicates (renewClaimTokens (splitLines text)) := by
  by_cases ht : text.isEmpty
  · have htn : text = [] := by rwa [List.isEmpty_iff] at ht
    subst htn
    decide
  · rw [extract_section_numbers, if_neg (by simp [neverCancel, ht]),
      if_pos (by decide)]
    rcases h1 : lineLoop neverCancel "renewal" (splitLines text) 1 false
      with ⟨r1, m1⟩
    have := renewLoop_outside (splitLines text) 1
    rw [h1] at this
    simp only at this
    subst this
    rfl

/-! ### The pr_section scanner against its declarative reading (C4) -/

theorem isWs_not_digit (c : Char) (h : isWs c = true) : c.isDigit = false := by
  rw [isWs] at h
  simp only [Bool.or_eq_true, decide_eq_true_eq] at h
  rcases h with ((((rfl | rfl) | rfl) | rfl) | rfl) | rfl <;> decide

theorem isHy_not_digit (c : Char) (h : isHy c = true) : c.isDigit = false := by
  rw [isHy] at h
  simp only [Bool.or_eq_true, decide_eq_true_eq] at h
  rcases h with rfl | rfl <;> decide

theorem digit_not_isWs (c : Char) (h : c.isDigit = true) : isWs c = false := by
  cases hw : isWs c
  · rfl
  · rw [isWs_not_digit c hw] at h
    exact absurd h (by simp)

theorem digit_not_isHy (c : Char) (h : c.isDigit = true) : isHy c = false := by
  cases hw : isHy c
  · rfl
  · rw [isHy_not_digit c hw] at h
    exact absurd h (by simp)

theorem isHy_not_isWs (c : Char) (h : isHy c = true) : isWs c = false := by
  rw [isHy] at h
  simp only [Bool.or_eq_true, decide_eq_true_eq] at h
  rcases h with rfl | rfl <;> decide

theorem occ_after_dropWhile (p : Char → Bool) (a x b : List Char)
    (hx : x ≠ []) (hxh : ∀ c, x.head? = some c → p c = false) :
    ∃ a2, a = (a ++ x ++ b).takeWhile p ++ a2 ∧
      (a ++ x ++ b).dropWhile p = a2 ++ x ++ b := by
  induction a with
  | nil =>
    rcases x with _ | ⟨c, x'⟩
    · exact absurd rfl hx
    · have hc := hxh c rfl
      exact ⟨[], by simp [List.takeWhile_cons, hc], by simp [List.dropWhile_cons, hc]⟩
  | cons c a' ih =>
    cases hp : p c
    · refine ⟨c :: a', ?_, ?_⟩
      · simp [List.takeWhile_cons, hp]
      · simp [List.dropWhile_cons, hp]
    · obtain ⟨a2, h1, h2⟩ := ih
      refine ⟨a2, ?_, ?_⟩
      · simp only [List.cons_append, List.takeWhile_cons, hp, if_true]
        exact congrArg (List.cons c) h1
      · simp only [List.cons_append, List.dropWhile_cons, hp, if_true]
        exact h2

theorem occ_digit_after_run (pre x suf : List Char)
    (hx : x ≠ []) (hpre : pre ≠ [])
    (hlast : ∀ c, pre.getLast? = some c → ¬c.isDigit = true) :
    ∃ pre2, pre = (pre ++ x ++ suf).takeWhile Char.isDigit ++ pre2 ∧ pre2 ≠ [] ∧
      (pre ++ x ++ suf).dropWhile Char.isDigit = pre2 ++ x ++ suf ∧
      pre2.getLast? = pre.getLast? := by
  induction pre with
  | nil => exact absurd rfl hpre
  | cons c pre' ih =>
    cases hd : c.isDigit
    · refine ⟨c :: pre', ?_, by simp, ?_, rfl⟩
      · simp [List.takeWhile_cons, hd]
      · simp [List.dropWhile_cons, hd]
    · have hpre' : pre' ≠ [] := by
        rintro rfl
        have : ¬c.isDigit = true := hlast c rfl
        exact this hd
      have hlast' : ∀ c2, pre'.getLast? = some c2 → ¬c2.isDigit = true := by
        intro c2 hc2
        refine hlast c2 ?_
        rcases pre' with _ | ⟨e, pre''⟩
        · exact absurd rfl hpre'
        · rwa [List.getLast?_cons_cons]
      obtain ⟨pre2, h1, h2, h3, h4⟩ := ih hpre' hlast'
      refine ⟨pre2, ?_, h2, ?_, ?_⟩
      · simp only [List.cons_append, List.takeWhile_cons, hd, if_true]
        exact congrArg (List.cons c) h1
      · simp only [List.cons_append, List.dropWhile_cons, hd, if_true]
        exact h3
      · rw [h4]
        rcases pre' with _ | ⟨e, pre''⟩
        · exact absurd rfl hpre'
        · rw [List.getLast?_cons_cons]

theorem takeWhile_digits (x suf : List Char) (hxd : ∀ c ∈ x, c.isDigit = true)
    (hsuf : ∀ c, suf.head? = some c → c.isDigit = false) :
    (x ++ suf).takeWhile Char.isDigit = x ∧
      (x ++ suf).dropWhile Char.isDigit = suf := by
  constructor
  · rw [List.takeWhile_append_of_pos hxd]
    rcases suf with _ | ⟨c, s'⟩
    · simp
    · simp [List.takeWhile_cons, hsuf c rfl]
  · rw [List.dropWhile_append_of_pos hxd]
    rcases suf with _ | ⟨c, s'⟩
    · simp
    · simp [List.dropWhile_cons, hsuf c rfl]

theorem qualOcc_prepend_lastSafe (a l x : List Char) (hq : QualOcc x l)
    (ha : ∀ c, a.getLast? = some c → ¬c.isDigit = true) : QualOcc x (a ++ l) := by
  obtain ⟨pre, ws, hy, post, hdec, hxd, hxl, hws, hhy, hlast⟩ := hq
  refine ⟨a ++ pre, ws, hy, post, by simp [hdec], hxd, hxl, hws, hhy, ?_⟩
  intro c hc
  rw [List.getLast?_append] at hc
  rcases hp : pre.getLast? with _ | v
  · rw [hp] at hc
    simp only [Option.or] at hc
    exact ha c hc
  · rw [hp] at hc
    simp only [Option.or, Option.some.injEq] at hc
    subst hc
    exact hlast v hp

theorem qualOcc_prepend_headSafe (a l x : List Char) (hq : QualOcc x l)
    (hh : ∀ c, l.head? = some c → c.isDigit = false) : QualOcc x (a ++ l) := by
  obtain ⟨pre, ws, hy, post, hdec, hxd, hxl, hws, hhy, hlast⟩ := hq
  have hpre : pre ≠ [] := by
    rintro rfl
    rcases x with _ | ⟨c, x'⟩
    · simp at hxl
    · have h1 : l.head? = some c := by rw [hdec]; rfl
      have h2 := hh c h1
      have h3 := hxd c (List.mem_cons_self _ _)
      rw [h2] at h3
      exact absurd h3 (by simp)
  refine ⟨a ++ pre, ws, hy, post, by simp [hdec], hxd, hxl, hws, hhy, ?_⟩
  intro c hc
  rw [List.getLast?_append] at hc
  rcases hp : pre.getLast? with _ | v
  · exact absurd (List.getLast?_eq_none_iff.mp hp) hpre
  · rw [hp] at hc
    simp only [Option.or, Option.some.injEq] at hc
    subst hc
    exact hlast v hp

theorem prFindAll_imp_qualOcc :
    ∀ (n : Nat) (l : List Char), l.length ≤ n → ∀ x, x ∈ prFindAll l → QualOcc x l := by
  intro n
  induction n with
  | zero =>
    intro l hl x hx
    have hln : l = [] := List.length_eq_zero.mp (Nat.le_zero.mp hl)
    subst hln
    rw [prFindAll] at hx
    exact absurd hx (List.not_mem_nil x)
  | succ n ih =>
    intro l hl x hx
    rcases l with _ | ⟨c, cs⟩
    · rw [prFindAll] at hx
      exact absurd hx (List.not_mem_nil x)
    · have hcs : cs.length ≤ n := by
        simp only [List.length_cons] at hl
        omega
      have hrest : (cs.dropWhile Char.isDigit).length ≤ n :=
        le_trans (List.Sublist.length_le (List.dropWhile_sublist _)) hcs
      rw [prFindAll] at hx
      by_cases hd : c.isDigit = true
      · rw [if_pos hd] at hx
        by_cases hcond : ((((cs.dropWhile Char.isDigit).dropWhile isWs).head?.any isHy) &&
            decide (5 ≤ (c :: cs.takeWhile Char.isDigit).length)) = true
        · rw [if_pos hcond] at hx
          obtain ⟨hany, hlen⟩ := Bool.and_eq_true_iff.mp hcond
          rw [decide_eq_true_eq] at hlen
          rcases hr2 : (cs.dropWhile Char.isDigit).dropWhile isWs with _ | ⟨d, t⟩
          · rw [hr2] at hany
            simp at hany
          · rw [hr2] at hany hx
            simp only [List.head?_cons, Option.any_some] at hany
            have hdecomp : c :: cs =
                (c :: cs.takeWhile Char.isDigit) ++
                  ((cs.dropWhile Char.isDigit).takeWhile isWs ++ (d :: t)) := by
              rw [← hr2, List.takeWhile_append_dropWhile, List.cons_append,
                List.takeWhile_append_dropWhile]
            have hrd : ∀ ch ∈ c :: cs.takeWhile Char.isDigit, ch.isDigit = true := by
              intro ch hch
              rcases List.mem_cons.mp hch with rfl | h2
              · exact hd
              · exact List.mem_takeWhile_imp h2
            have hwsall : ∀ ch ∈ (cs.dropWhile Char.isDigit).takeWhile isWs,
                isWs ch = true := fun ch hch => List.mem_takeWhile_imp hch
            rcases List.mem_cons.mp hx with rfl | hx2
            · exact ⟨[], (cs.dropWhile Char.isDigit).takeWhile isWs, d, t,
                by simpa using hdecomp, hrd, hlen, hwsall, hany, by simp⟩
            · have htle : t.length ≤ n := by
                have h1 : ((cs.dropWhile Char.isDigit).dropWhile isWs).length ≤
                    (cs.dropWhile Char.isDigit).length :=
                  List.Sublist.length_le (List.dropWhile_sublist _)
                rw [hr2, List.length_cons] at h1
                omega
              have hq := ih t htle x hx2
              have hstep := qualOcc_prepend_lastSafe
                ((c :: cs.takeWhile Char.isDigit) ++
                  ((cs.dropWhile Char.isDigit).takeWhile isWs ++ [d])) t x hq ?hlastd
              · have heq : ((c :: cs.takeWhile Char.isDigit) ++
                    ((cs.dropWhile Char.isDigit).takeWhile isWs ++ [d])) ++ t =
                    c :: cs := by
                  rw [hdecomp]
                  simp [List.append_assoc]
                rwa [heq] at hstep
              case hlastd =>
                intro c2 hc2
                rw [List.getLast?_append, List.getLast?_append] at hc2
                simp only [List.getLast?_singleton, Option.or] at hc2
                cases hc2
                exact fun hdig => by rw [isHy_not_digit d hany] at hdig; cases hdig
        · rw [if_neg hcond] at hx
          have hq := ih (cs.dropWhile Char.isDigit) hrest x hx
          have hh : ∀ ch, (cs.dropWhile Char.isDigit).head? = some ch →
              ch.isDigit = false := by
            intro ch hch
            have h1 := List.head?_dropWhile_not Char.isDigit cs
            rw [hch] at h1
            exact h1
          have hstep := qualOcc_prepend_headSafe (c :: cs.takeWhile Char.isDigit)
            (cs.dropWhile Char.isDigit) x hq hh
          have heq : (c :: cs.takeWhile Char.isDigit) ++ cs.dropWhile Char.isDigit =
              c :: cs := by
            rw [List.cons_append, List.takeWhile_append_dropWhile]
          rwa [heq] at hstep
      · rw [if_neg hd] at hx
        have hq := ih cs hcs x hx
        have hstep := qualOcc_prepend_lastSafe [c] cs x hq ?hlastc
        · simpa using hstep
        case hlastc =>
          intro c2 hc2
          rw [List.getLast?_singleton] at hc2
          cases hc2
          intro hdig
          exact hd hdig

theorem qualOcc_imp_prFindAll :
    ∀ (n : Nat) (l : List Char), l.length ≤ n → ∀ x, QualOcc x l → x ∈ prFindAll l := by
  intro n
  induction n with
  | zero =>
    intro l hl x hq
    obtain ⟨pre, ws, hy, post, hdec, hxd, hxl, hws, hhy, hlast⟩ := hq
    have hln : l = [] := List.length_eq_zero.mp (Nat.le_zero.mp hl)
    subst hln
    have := congrArg List.length hdec
    simp only [List.length_nil, List.length_append, List.length_cons] at this
    omega
  | succ n ih =>
    intro l hl x hq
    obtain ⟨pre, ws, hy, post, hdec, hxd, hxl, hws, hhy, hlast⟩ := hq
    rcases x with _ | ⟨cx, x'⟩
    · simp at hxl
    have hcxd : cx.isDigit = true := hxd cx (List.mem_cons_self _ _)
    have hsufhead : ∀ ch, (ws ++ hy :: post).head? = some ch → ch.isDigit = false := by
      intro ch hch
      rcases ws with _ | ⟨w, ws'⟩
      · simp only [List.nil_append, List.head?_cons, Option.some.injEq] at hch
        rw [← hch]
        exact isHy_not_digit hy hhy
      · simp only [List.cons_append, List.head?_cons, Option.some.injEq] at hch
        rw [← hch]
        exact isWs_not_digit w (hws w (List.mem_cons_self _ _))
    have hxd' : ∀ ch ∈ x', ch.isDigit = true :=
      fun ch hch => hxd ch (List.mem_cons_of_mem _ hch)
    rcases pre with _ | ⟨p, pre'⟩
    · simp only [List.nil_append, List.cons_append, List.append_assoc] at hdec
      subst hdec
      rw [prFindAll, if_pos hcxd]
      obtain ⟨htw, hdw⟩ := takeWhile_digits x' (ws ++ hy :: post) hxd' hsufhead
      rw [htw, hdw, List.dropWhile_append_of_pos hws,
        List.dropWhile_cons_of_neg (by rw [isHy_not_isWs hy hhy]; exact Bool.false_ne_true)]
      rw [if_pos ?hcnd]
      · exact List.mem_cons_self _ _
      case hcnd =>
        simp only [List.head?_cons, Option.any_some, hhy, Bool.true_and,
          decide_eq_true_eq]
        exact hxl
    · simp only [List.cons_append, List.append_assoc] at hdec
      subst hdec
      have hNlen : (pre' ++ cx :: (x' ++ (ws ++ hy :: post))).length ≤ n := by
        simp only [List.length_cons] at hl
        omega
      cases hpd : p.isDigit
      · rw [prFindAll, if_neg (by rw [hpd]; exact Bool.false_ne_true)]
        refine ih _ hNlen _ ⟨pre', ws, hy, post,
          by simp [List.cons_append, List.append_assoc], hxd, hxl, hws, hhy, ?_⟩
        intro c2 hc2
        refine hlast c2 ?_
        rcases pre' with _ | ⟨q, pre''⟩
        · cases hc2
        · rwa [List.getLast?_cons_cons]
      · obtain ⟨pre2, hp1, hp2, hp3, hp4⟩ :=
          occ_digit_after_run (p :: pre') (cx :: x') (ws ++ hy :: post)
            (by simp) (by simp) hlast
        have hTN : (p :: pre') ++ (cx :: x') ++ (ws ++ hy :: post) =
            p :: (pre' ++ cx :: (x' ++ (ws ++ hy :: post))) := by
          simp [List.cons_append, List.append_assoc]
        rw [hTN, List.dropWhile_cons_of_pos hpd] at hp3
        have hrestlen : ((pre' ++ cx :: (x' ++ (ws ++ hy :: post))).dropWhile
            Char.isDigit).length ≤ n :=
          le_trans (List.Sublist.length_le (List.dropWhile_sublist _)) hNlen
        obtain ⟨a2, ha1, ha2⟩ := occ_after_dropWhile isWs pre2 (cx :: x')
          (ws ++ hy :: post) (by simp)
          (fun ch hch => by
            simp only [List.head?_cons, Option.some.injEq] at hch
            rw [← hch]
            exact digit_not_isWs cx hcxd)
        rw [← hp3] at ha1 ha2
        rw [prFindAll, if_pos hpd]
        have hqrest : QualOcc (cx :: x')
            ((pre' ++ cx :: (x' ++ (ws ++ hy :: post))).dropWhile Char.isDigit) := by
          refine ⟨pre2, ws, hy, post, by rw [hp3]; simp [List.append_assoc],
            hxd, hxl, hws, hhy, ?_⟩
          intro c2 hc2
          refine hlast c2 ?_
          rw [← hp4]
          exact hc2
        rcases a2 with _ | ⟨d, a3⟩
        · simp only [List.nil_append, List.cons_append] at ha2
          rw [if_neg ?hcnd2]
          · exact ih _ hrestlen _ hqrest
          case hcnd2 =>
            rw [ha2]
            simp only [List.head?_cons, Option.any_some, digit_not_isHy cx hcxd,
              Bool.false_and]
            exact Bool.false_ne_true
        · simp only [List.cons_append, List.append_assoc] at ha2
          by_cases hcond : ((((pre' ++ cx :: (x' ++ (ws ++ hy :: post))).dropWhile
              Char.isDigit).dropWhile isWs).head?.any isHy &&
              decide (5 ≤ (p :: (pre' ++ cx :: (x' ++ (ws ++ hy :: post))).takeWhile
                Char.isDigit).length)) = true
          · rw [if_pos hcond]
            refine List.mem_cons_of_mem _ ?_
            rw [ha2, List.tail_cons]
            have htail : (a3 ++ cx :: (x' ++ (ws ++ hy :: post))).length ≤ n := by
              have h5 : (((pre' ++ cx :: (x' ++ (ws ++ hy :: post))).dropWhile
                  Char.isDigit).dropWhile isWs).length ≤
                  ((pre' ++ cx :: (x' ++ (ws ++ hy :: post))).dropWhile
                    Char.isDigit).length :=
                List.Sublist.length_le (List.dropWhile_sublist _)
              rw [ha2, List.length_cons] at h5
              omega
            refine ih _ htail _ ⟨a3, ws, hy, post,
              by simp [List.cons_append, List.append_assoc], hxd, hxl, hws, hhy, ?_⟩
            intro c2 hc2
            rcases a3 with _ | ⟨e, a3'⟩
            · cases hc2
            · refine hlast c2 ?_
              rw [← hp4, ha1, List.getLast?_append, List.getLast?_cons_cons, hc2]
              rfl
          · rw [if_neg hcond]
            exact ih _ hrestlen _ hqrest

theorem prFindAll_mem_iff (lc : List Char) (x : Token) :
    x ∈ prFindAll lc ↔ QualOcc x lc :=
  ⟨prFindAll_imp_qualOcc lc.length lc le_rfl x,
    qualOcc_imp_prFindAll lc.length lc le_rfl x⟩

theorem prLoop_inside (ls : List Line) (k : Nat) :
    (lineLoop neverCancel "pr_section" ls k true).1 =
      some (((ls.filter fun l => !prSectionMarker l).map
        fun l => prFindAll (strip l)).flatten) := by
  induction ls generalizing k with
  | nil => rfl
  | cons l ls ih =>
    rw [lineLoop]
    simp only [neverCancel, Bool.false_eq_true, if_false, lineStep_pr]
    cases hp : prSectionMarker l with
    | true =>
      simp only [hp, if_true]
      rcases h1 : lineLoop neverCancel "pr_section" ls (k + 1) true with ⟨r1, m1⟩
      have := ih (k + 1)
      rw [h1] at this
      simp only at this
      subst this
      simp [List.filter_cons, hp]
    | false =>
      simp only [hp, Bool.false_eq_true, if_false, if_true]
      rcases h1 : lineLoop neverCancel "pr_section" ls (k + 1) true with ⟨r1, m1⟩
      have := ih (k + 1)
      rw [h1] at this
      simp only at this
      subst this
      simp [List.filter_cons, hp]

theorem prLoop_outside (ls : List Line) (k : Nat) :
    (lineLoop neverCancel "pr_section" ls k false).1 =
      some (((prInsideLines ls).map fun l => prFindAll (strip l)).flatten) := by
  induction ls generalizing k with
  | nil => rfl
  | cons l ls ih =>
    rw [lineLoop]
    simp only [neverCancel, Bool.false_eq_true, if_false, lineStep_pr]
    cases hp : prSectionMarker l with
    | true =>
      simp only [hp, if_true]
      rcases h1 : lineLoop neverCancel "pr_section" ls (k + 1) true with ⟨r1, m1⟩
      have := prLoop_inside ls (k + 1)
      rw [h1] at this
      simp only at this
      subst this
      simp [prInsideLines, List.dropWhile_cons, List.filter_cons, hp]
    | false =>
      simp only [hp, Bool.false_eq_true, if_false, if_true]
      rcases h1 : lineLoop neverCancel "pr_section" ls (k + 1) false with ⟨r1, m1⟩
      have := ih (k + 1)
      rw [h1] at this
      simp only at this
      subst this
      simp [prInsideLines, List.dropWhile_cons, hp]

/-- C4 counterexample: the second line comes after the line that turned the
inside flag on and contains the digit run "12345" immediately followed by
whitespace and a hyphen (witnessed by `QualOcc`), so the claim, as stated,
requires "12345" to be extracted; but the line also matches "PR SECTION"
itself and is skipped, and the result is empty. -/
theorem C4_pr_cex :
    prSectionMarker ((splitLines "PR SECTION\nPR SECTION 12345 -".data).headD [])
      = true ∧
    QualOcc "12345".data
      (strip ((splitLines "PR SECTION\nPR SECTION 12345 -".data).getD 1 [])) ∧
    (extract_section_numbers neverCancel 0 "PR SECTION\nPR SECTION 12345 -".data
      "pr_section").1 = [] := by
  refine ⟨by decide, ?_, ?_⟩
  · refine ⟨"PR SECTION ".data, [' '], '-', [], by decide, by decide, by decide,
      by decide, by decide, ?_⟩
    intro c hc
    have h1 : ("PR SECTION ".data).getLast? = some ' ' := by decide
    rw [h1] at hc
    cases hc
    decide
  · simp [extract_section_numbers, neverCancel, lineLoop, lineStep, splitLines,
      prSectionMarker, searchCI, startsWithCI, strip, isWs, remove_duplicates,
      rdAux, sectionOrder]

/-- C4 amended: under section pr_section, a token is extracted from the
page text exactly when some line after the first line matching "PR SECTION"
(case-insensitive), itself not matching the marker, contains a digit run of
length ≥ 5 (not preceded by a digit) immediately followed by optional
whitespace and then a hyphen (ASCII hyphen or en-dash), in its stripped
text; lines matching the marker are skipped. -/
theorem C4_pr_hyphen_iff (text : List Char) (x : Token) :
    x ∈ (extract_section_numbers neverCancel 0 text "pr_section").1 ↔
      ∃ l ∈ prInsideLines (splitLines text), QualOcc x (strip l) := by
  by_cases ht : text.isEmpty
  · have htn : text = [] := by rwa [List.isEmpty_iff] at ht
    subst htn
    have h1 : (extract_section_numbers neverCancel 0 [] "pr_section").1 = [] := by
      rw [extract_section_numbers]
      simp [neverCancel]
    have h2 : prInsideLines (splitLines ([] : List Char)) = [] := by decide
    rw [h1, h2]
    simp
  · rw [extract_section_numbers, if_neg (by simp [neverCancel, ht]),
      if_pos (by decide)]
    rcases h1 : lineLoop neverCancel "pr_section" (splitLines text) 1 false
      with ⟨r1, m1⟩
    have := prLoop_outside (splitLines text) 1
    rw [h1] at this
    simp only at this
    subst this
    simp only [mem_remove_duplicates, List.mem_flatten, List.mem_map]
    constructor
    · rintro ⟨ts, ⟨l, hl, rfl⟩, hx⟩
      exact ⟨l, hl, (prFindAll_mem_iff _ _).mp hx⟩
    · rintro ⟨l, hl, hq⟩
      exact ⟨prFindAll (strip l), ⟨l, hl, rfl⟩, (prFindAll_mem_iff _ _).mpr hq⟩

/-! ### Progress accounting of `process_pdf` (C7) -/

theorem pageLoop_updates (cancel : Nat → Bool) (sec : String) (total : Nat)
    (ps : List (List Char)) (k pr : Nat) :
    ∃ m, m ≤ ps.length ∧
      (pageLoop cancel sec total ps k pr).2.2.2 = pr + m ∧
      (pageLoop cancel sec total ps k pr).2.1 =
        (List.range m).map
          (fun i => (((pr + i + 1 : ℕ) : ℚ) / ((total : ℕ) : ℚ)) * 100) := by
  induction ps generalizing k pr with
  | nil => exact ⟨0, by simp, by simp [pageLoop], by simp [pageLoop]⟩
  | cons t ts ih =>
    by_cases hc : cancel k
    · refine ⟨0, by simp, ?_, ?_⟩ <;> rw [pageLoop] <;> simp [hc]
    · obtain ⟨m, hm1, hm2, hm3⟩ := ih k (pr + 1)
      rcases he : extract_section_numbers cancel (k + 1) t sec with ⟨nums, k1⟩
      obtain ⟨m', hm1', hm2', hm3'⟩ := ih k1 (pr + 1)
      rcases hp : pageLoop cancel sec total ts k1 (pr + 1) with ⟨rest, ups, k2, pr2⟩
      rw [hp] at hm2' hm3'
      simp only at hm2' hm3'
      refine ⟨m' + 1, by simp only [List.length_cons]; omega, ?_, ?_⟩
      · rw [pageLoop]
        simp only [hc, Bool.false_eq_true, if_false, he, hp]
        omega
      · rw [pageLoop]
        simp only [hc, Bool.false_eq_true, if_false, he, hp]
        rw [List.range_succ_eq_map, List.map_cons, List.map_map]
        refine congrArg₂ _ (by norm_num) ?_
        rw [hm3']
        refine List.map_congr_left fun i _ => ?_
        simp only [Function.comp]
        norm_num
        ring_nf

theorem sectionLoop_updates (cancel : Nat → Bool) (pages : List (List Char))
    (total : Nat) (ss : List String) (k pr : Nat) :
    ∃ m, m ≤ ss.length * pages.length ∧
      (sectionLoop cancel pages total ss k pr).2.2.2 = pr + m ∧
      (sectionLoop cancel pages total ss k pr).2.1 =
        (List.range m).map
          (fun i => (((pr + i + 1 : ℕ) : ℚ) / ((total : ℕ) : ℚ)) * 100) := by
  induction ss generalizing k pr with
  | nil => exact ⟨0, by simp, by simp [sectionLoop], by simp [sectionLoop]⟩
  | cons s ss ih =>
    by_cases hc : cancel k
    · refine ⟨0, by simp, ?_, ?_⟩ <;> rw [sectionLoop] <;> simp [hc]
    · obtain ⟨m1, h11, h12, h13⟩ := pageLoop_updates cancel s total pages (k + 1) pr
      rcases hp : pageLoop cancel s total pages (k + 1) pr with ⟨nums, ups, k1, pr1⟩
      rw [hp] at h12 h13
      simp only at h12 h13
      obtain ⟨m2, h21, h22, h23⟩ := ih k1 pr1
      rcases hs : sectionLoop cancel pages total ss k1 pr1 with ⟨rest, ups2, k2, pr2⟩
      rw [hs] at h22 h23
      simp only at h22 h23
      refine ⟨m1 + m2, ?_, ?_, ?_⟩
      · simp only [List.length_cons]
        have : (ss.length + 1) * pages.length = ss.length * pages.length + pages.length := by
          ring
        omega
      · rw [sectionLoop]
        simp only [hc, Bool.false_eq_true, if_false, hp, hs]
        omega
      · rw [sectionLoop]
        simp only [hc, Bool.false_eq_true, if_false, hp, hs]
        rw [List.range_add, List.map_append, List.map_map, h13, h23]
        refine congrArg₂ _ rfl ?_
        refine List.map_congr_left fun i _ => ?_
        simp only [Function.comp]
        subst h12
        push_cast
        ring_nf

theorem process_pdf_updates (cancel : Nat → Bool) (pages : List (List Char)) :
    ∃ m, m ≤ pages.length * sectionOrder.length ∧
      (process_pdf cancel pages).prEnd = m ∧
      (process_pdf cancel pages).updates =
        (List.range m).map
          (fun i => (((i + 1 : ℕ) : ℚ) /
            ((pages.length * sectionOrder.length : ℕ) : ℚ)) * 100) := by
  obtain ⟨m, h1, h2, h3⟩ := sectionLoop_updates cancel pages
    (pages.length * sectionOrder.length) sectionOrder 0 0
  rcases hs : sectionLoop cancel pages (pages.length * sectionOrder.length)
    sectionOrder 0 0 with ⟨res, ups, k, pr⟩
  rw [hs] at h2 h3
  simp only at h2 h3
  refine ⟨m, by rw [Nat.mul_comm]; exact h1, ?_, ?_⟩
  · rw [process_pdf, hs]
    simpa using h2
  · rw [process_pdf, hs]
    simpa using h3

/-- C7 amended: over one document's processing, the recorded progress
values are monotonically non-decreasing; the i-th update has value
(i+1) / (pages × sections) × 100 and is recorded when the (i+1)-th
page-unit begins processing, before that page's extraction; and progress
reaches 100 exactly when every page-unit of every section has begun
processing — a run cancelled during the final page's extraction can
therefore still reach 100. -/
theorem C7_progress_monotone (cancel : Nat → Bool) (pages : List (List Char)) :
    List.Chain' (· ≤ ·) (process_pdf cancel pages).updates ∧
    (process_pdf cancel pages).updates =
      (List.range (process_pdf cancel pages).updates.length).map
        (fun i => (((i + 1 : ℕ) : ℚ) /
          ((pages.length * sectionOrder.length : ℕ) : ℚ)) * 100) ∧
    ((100 : ℚ) ∈ (process_pdf cancel pages).updates ↔
      (process_pdf cancel pages).updates.length =
        pages.length * sectionOrder.length ∧ 0 < pages.length) := by
  obtain ⟨m, hm, hpr, hups⟩ := process_pdf_updates cancel pages
  have hlen : (process_pdf cancel pages).updates.length = m := by
    rw [hups, List.length_map, List.length_range]
  have hsec : sectionOrder.length = 5 := rfl
  refine ⟨?_, ?_, ?_, ?_⟩
  · rw [hups]
    refine List.Pairwise.chain' ?_
    refine List.Pairwise.map _ ?_ (List.pairwise_lt_range m)
    intro a b hab
    rcases Nat.eq_zero_or_pos (pages.length * sectionOrder.length) with h0 | h0
    · simp [h0]
    · have hTQ : (0 : ℚ) < ((pages.length * sectionOrder.length : ℕ) : ℚ) := by
        exact_mod_cast h0
      have hab2 : ((a + 1 : ℕ) : ℚ) ≤ ((b + 1 : ℕ) : ℚ) := by
        exact_mod_cast Nat.succ_le_succ (le_of_lt hab)
      exact mul_le_mul_of_nonneg_right ((div_le_div_right hTQ).mpr hab2)
        (by norm_num)
  · rw [hlen]
    exact hups
  · intro h100
    rw [hups] at h100
    obtain ⟨i, hi, hfi⟩ := List.mem_map.mp h100
    rw [List.mem_range] at hi
    rcases Nat.eq_zero_or_pos (pages.length * sectionOrder.length) with h0 | h0
    · rw [h0] at hfi
      norm_num at hfi
    · have hTQ : ((pages.length * sectionOrder.length : ℕ) : ℚ) ≠ 0 := by
        have : (0 : ℚ) < ((pages.length * sectionOrder.length : ℕ) : ℚ) := by
          exact_mod_cast h0
        exact ne_of_gt this
      rw [div_mul_eq_mul_div, div_eq_iff hTQ] at hfi
      have hiT : (i + 1 : ℕ) = pages.length * sectionOrder.length := by
        have h2 : ((i + 1 : ℕ) : ℚ) = ((pages.length * sectionOrder.length : ℕ) : ℚ) := by
          linarith
        exact_mod_cast h2
      constructor
      · rw [hlen]
        omega
      · rw [hsec] at hiT
        omega
  · rintro ⟨hfull, hpos⟩
    rw [hlen] at hfull
    have hm0 : 0 < m := by
      rw [hfull, hsec]
      omega
    have hTQ : ((pages.length * sectionOrder.length : ℕ) : ℚ) ≠ 0 := by
      have h0 : 0 < pages.length * sectionOrder.length := by
        rw [hsec]; omega
      have : (0 : ℚ) < ((pages.length * sectionOrder.length : ℕ) : ℚ) := by
        exact_mod_cast h0
      exact ne_of_gt this
    rw [hups]
    refine List.mem_map.mpr ⟨m - 1, List.mem_range.mpr (by omega), ?_⟩
    have h1 : m - 1 + 1 = pages.length * sectionOrder.length := by omega
    rw [h1, div_self hTQ, one_mul]

/-- C7 counterexample: one page whose pr_section extraction would yield
["12345"].  The cancellation signal becomes set from the 24th flag read
onward — after the final page-unit's progress update (the 100 value is
recorded before the page's extraction) but before the pr_section line
reads.  The run's progress reaches 100, its final flag check reports it
cancelled, and its results differ from the fully-processed run: progress
reached 100 on a cancelled run whose last unit was not fully processed,
contradicting the claim as stated. -/
theorem C7_progress_cex :
    (100 : ℚ) ∈ (process_pdf (fun k => decide (23 ≤ k))
      ["PR SECTION\n12345 -".data]).updates ∧
    (fun k => decide (23 ≤ k))
      (process_pdf (fun k => decide (23 ≤ k)) ["PR SECTION\n12345 -".data]).kEnd
      = true ∧
    (process_pdf (fun k => decide (23 ≤ k)) ["PR SECTION\n12345 -".data]).results ≠
      (process_pdf neverCancel ["PR SECTION\n12345 -".data]).results := by
  refine ⟨?_, ?_, ?_⟩ <;>
    simp [process_pdf, sectionLoop, pageLoop, extract_section_numbers, lineLoop,
      lineStep, splitLines, corrigendaMarker, renewalMarker, prSectionMarker,
      searchCI, startsWithCI, advScan, dateShape, digitRuns, findRuns5, prFindAll,
      appNoScan, appNoTail, isPrefixList, appNoLit, rcLine, splitWs, splitWsAux,
      pyIsDigit, strip, isWs, isHy, remove_duplicates, rdAux, sectionOrder,
      neverCancel]
